import Mathlib

/-!
# octrf: decision trees and random forests

A shallow embedding of `src/octrf/tree.h` and `src/octrf/forest.h`.

Conventions of the embedding.

* `double` is a linearly ordered scalar type `S` carrying `+`, `*` and a cast
  from the naturals; `DBL_MAX` is the field `dblMax` of the collaborator record.
* `int` values are `Int`; no arithmetic is done on them by the code, only
  comparisons and loop bounds.
* `assert` is taken as enabled: a failed assertion aborts, which is `none`.
* Dereferencing an empty `shared_ptr` is `none` as well.
* The collaborators (`TestFunc`, `LeafType`, the objective functor, the random
  source behind `random_sample` and `std::random_shuffle`) are the fields of
  `Collab`; random state is threaded explicitly through a type `G`.
* `ExampleSet` lives in `common.h`, which is not part of the sources at hand;
  it is modelled from the specification as a list of (label, feature) pairs.
* `size()` of an `ExampleSet` is compared with the `int` thresholds as an
  integer.
* The `chatty_` flag only prints; the output is not modelled.
* The `omp parallel for` of `Forest::train` is run in index order.
* Files are the lists of their characters; opening a file is not modelled.
-/

namespace octrf

/-! ## ExampleSet -/

/-- Modelled from the spec: `ExampleSet` of `common.h`, "a collection of
parallel (label, feature) pairs". -/
abbrev ExampleSet (Y X : Type) := List (Y × X)

/-- Modelled from the spec: the label projection `Y_` of `ExampleSet`. -/
def ExampleSet.Y_ {Y X : Type} (data : ExampleSet Y X) : List Y := data.map Prod.fst

/-- Modelled from the spec: the feature projection `X_` of `ExampleSet`. -/
def ExampleSet.X_ {Y X : Type} (data : ExampleSet Y X) : List X := data.map Prod.snd

/-- Modelled from the spec: `ExampleSet::push_back`, "appending a single example". -/
def ExampleSet.push_back {Y X : Type} (data : ExampleSet Y X) (ex : Y × X) : ExampleSet Y X :=
  data ++ [ex]

/-- Modelled from the spec: `ExampleSet::push_to(dst, i)`, "copying one selected
element into a destination collection"; an index out of range is an error. -/
def ExampleSet.push_to {Y X : Type} (data dst : ExampleSet Y X) (i : Nat) :
    Option (ExampleSet Y X) :=
  match data.get? i with
  | some ex => some (dst ++ [ex])
  | none => none

/-- Modelled from the spec: `ExampleSet::subset(idxs, dst)`, "extracting an
index-selected subset into a fresh collection", element by element in the
order of `idxs`. -/
def ExampleSet.subset {Y X : Type} (data : ExampleSet Y X) :
    List Nat → ExampleSet Y X → Option (ExampleSet Y X)
  | [], dst => some dst
  | i :: is, dst =>
    match ExampleSet.push_to data dst i with
    | some dst1 => ExampleSet.subset data is dst1
    | none => none

/-! ## Parameters -/

/-- The record `TreeTrainingParameters` (tree.h, lines 6-12). -/
structure TreeTrainingParameters (S : Type) where
  objfunc_th : S
  objfunc_restart_th : S
  nexamples_th : Int
  nexamples_restart_th : Int
  nsamplings : Int
  chatty_ : Bool

/-- The constructor of `TreeTrainingParameters` (tree.h, lines 13-29): the
fields are initialised from the arguments, then the two assertions run. -/
def TreeTrainingParameters.new {S : Type} [LinearOrder S]
    (objfunc_th objfunc_restart_th : S) (nexamples_th nexamples_restart_th nsamplings : Int)
    (chatty : Bool) : Option (TreeTrainingParameters S) :=
  if objfunc_th < objfunc_restart_th then
    if nexamples_th < nexamples_restart_th then
      some ⟨objfunc_th, objfunc_restart_th, nexamples_th, nexamples_restart_th, nsamplings, chatty⟩
    else none
  else none

/-- The record `ForestTrainingParameters` (forest.h, lines 7-14). -/
structure ForestTrainingParameters (S : Type) where
  ntrees : Int
  tree_trp : TreeTrainingParameters S

/-! ## Collaborators -/

/-- The caller-supplied template arguments: `TestFunc`, `LeafType`, the
objective functor, and the constant `DBL_MAX`. -/
structure Collab (Y X L TF G S : Type) where
  /-- `TestFunc::operator()` -/
  tfEval : TF → X → Bool
  /-- `TestFunc::random_sample()`, run on a copy of the prototype -/
  random_sample : TF → G → TF × G
  /-- The default-constructed `TestFunc` -/
  tfDefault : TF
  /-- `TestFunc::serialize()` -/
  tfSerialize : TF → List Char
  /-- `TestFunc::deserialize(str)`, which updates the object in place -/
  tfDeserialize : TF → List Char → TF
  /-- `LeafType(labels)` -/
  leafFromLabels : List Y → L
  /-- `LeafType::serialize()` -/
  leafSerialize : L → List Char
  /-- `LeafType()` followed by `deserialize(str)` -/
  leafDeserialize : List Char → L
  /-- The objective functor -/
  objfunc : List Y → S
  /-- The constant `DBL_MAX` -/
  dblMax : S
  /-- `std::random_shuffle` on the index vector -/
  random_shuffle : List Nat → G → List Nat × G

/-! ## Tree -/

/-- A `shared_ptr<Tree>`: either empty (`null`) or pointing to a tree object
with the fields `dim_`, `tf_`, `leaf_`, `tr_`, `tl_`, `stock_` (tree.h, lines
39-44). A tree object itself is always a `node`. -/
inductive Tree (Y X L TF : Type) where
  | null : Tree Y X L TF
  | node (dim_ : Int) (tf_ : TF) (leaf_ : Bool × Option L)
      (tr_ tl_ : Tree Y X L TF) (stock_ : ExampleSet Y X) : Tree Y X L TF
  deriving DecidableEq, Repr

namespace Tree

variable {Y X L TF G S : Type}

/-- The constructor `Tree(dim, tf)` (tree.h, lines 46-49). -/
def new (dim : Int) (tf : TF) : Tree Y X L TF :=
  node dim tf (true, none) null null []

/-- `Tree::predict` (tree.h, lines 51-54). -/
def predict (c : Collab Y X L TF G S) : Tree Y X L TF → X → Option L
  | null, _ => none
  | node _ tf_ leaf_ tr_ tl_ _, x =>
    if leaf_.1 then leaf_.2
    else if c.tfEval tf_ x then predict c tr_ x else predict c tl_ x

/-- The two inner loops of `Tree::train` (lines 96-100 and 108-112): the
examples on which `tf` is true, and those on which it is false, in order. -/
def split (c : Collab Y X L TF G S) (tf : TF) (data : ExampleSet Y X) :
    ExampleSet Y X × ExampleSet Y X :=
  (data.filter (fun ex => c.tfEval tf ex.2), data.filter (fun ex => !(c.tfEval tf ex.2)))

/-- The weighted impurity `e` of line 101. -/
def impurity [Add S] [Mul S] [NatCast S] (c : Collab Y X L TF G S) (tf : TF)
    (data : ExampleSet Y X) : S :=
  ((split c tf data).1.length : S) * c.objfunc (split c tf data).1.Y_
    + ((split c tf data).2.length : S) * c.objfunc (split c tf data).2.Y_

/-- The sampling loop of `Tree::train` (lines 93-106), `n` iterations from the
state `(mine, best_tf, g)`. -/
def search [LinearOrder S] [Add S] [Mul S] [NatCast S] (c : Collab Y X L TF G S)
    (tf_ : TF) (data : ExampleSet Y X) : Nat → S × TF × G → S × TF × G
  | 0, st => st
  | n + 1, (mine, best_tf, g) =>
    let s := c.random_sample tf_ g
    let e := impurity c s.1 data
    if e < mine then search c tf_ data n (e, s.1, s.2)
    else search c tf_ data n (mine, best_tf, s.2)

/-- The candidates drawn by `n` rounds of the sampling loop, in the order in
which they are drawn: each is a copy of the prototype `tf_` after
`random_sample()`. -/
def candidates (c : Collab Y X L TF G S) (tf_ : TF) : Nat → G → List TF
  | 0, _ => []
  | n + 1, g => (c.random_sample tf_ g).1 :: candidates c tf_ n (c.random_sample tf_ g).2

/-- The random state after `n` rounds of the sampling loop. -/
def sampleState (c : Collab Y X L TF G S) (tf_ : TF) : Nat → G → G
  | 0, g => g
  | n + 1, g => sampleState c tf_ n (c.random_sample tf_ g).2

/-- Lines 91-106 of `Tree::train`: `mine = DBL_MAX`, a default-constructed
`best_tf`, then `nsamplings` rounds of the sampling loop. -/
def bestSearch [LinearOrder S] [Add S] [Mul S] [NatCast S] (c : Collab Y X L TF G S)
    (trp : TreeTrainingParameters S) (tf_ : TF) (data : ExampleSet Y X) (g : G) : S × TF × G :=
  search c tf_ data trp.nsamplings.toNat (c.dblMax, c.tfDefault, g)

/-- `Tree::train` (tree.h, lines 78-124) with a recursion budget `fuel`;
running out of budget, or being called through an empty pointer, is `none`. -/
def trainAux [LinearOrder S] [Add S] [Mul S] [NatCast S] (c : Collab Y X L TF G S)
    (trp : TreeTrainingParameters S) :
    Nat → Tree Y X L TF → ExampleSet Y X → G → Option (Tree Y X L TF × G)
  | _, null, _, _ => none
  | 0, node _ _ _ _ _ _, _, _ => none
  | fuel + 1, node dim_ tf_ leaf_ tr_ tl_ stock_, data, g =>
    if c.objfunc data.Y_ ≤ trp.objfunc_th ∨ (data.length : Int) ≤ trp.nexamples_th then
      some (node dim_ tf_ (true, some (c.leafFromLabels data.Y_)) tr_ tl_ stock_, g)
    else
      let st := bestSearch c trp tf_ data g
      let best_tf := st.2.1
      let rdata := (split c best_tf data).1
      let ldata := (split c best_tf data).2
      if rdata.length = 0 ∨ ldata.length = 0 then
        some (node dim_ tf_ (true, some (c.leafFromLabels data.Y_)) tr_ tl_ stock_, st.2.2)
      else
        match trainAux c trp fuel (new dim_ best_tf) rdata st.2.2 with
        | none => none
        | some (tr1, g1) =>
          match trainAux c trp fuel (new dim_ best_tf) ldata g1 with
          | none => none
          | some (tl1, g2) => some (node dim_ best_tf (false, leaf_.2) tr1 tl1 stock_, g2)

/-- `Tree::train`: the budget `size(data) + 1` is never exhausted
(see `trainAux_isSome` and `trainAux_fuel`). -/
def train [LinearOrder S] [Add S] [Mul S] [NatCast S] (c : Collab Y X L TF G S)
    (trp : TreeTrainingParameters S) (t : Tree Y X L TF) (data : ExampleSet Y X) (g : G) :
    Option (Tree Y X L TF × G) :=
  trainAux c trp (data.length + 1) t data g

/-- `Tree::train1` (tree.h, lines 57-75). -/
def train1 [LinearOrder S] [Add S] [Mul S] [NatCast S] (c : Collab Y X L TF G S)
    (trp : TreeTrainingParameters S) : Tree Y X L TF → Y × X → G → Option (Tree Y X L TF × G)
  | null, _, _ => none
  | node dim_ tf_ leaf_ tr_ tl_ stock_, ex, g =>
    if !leaf_.1 then
      if c.tfEval tf_ ex.2 then
        match train1 c trp tr_ ex g with
        | none => none
        | some (tr1, g1) => some (node dim_ tf_ leaf_ tr1 tl_ stock_, g1)
      else
        match train1 c trp tl_ ex g with
        | none => none
        | some (tl1, g1) => some (node dim_ tf_ leaf_ tr_ tl1 stock_, g1)
    else
      if (stock_.push_back ex).length ≥ trp.nexamples_restart_th ∧
          c.objfunc (stock_.push_back ex).Y_ ≥ trp.objfunc_restart_th then
        match train c trp (node dim_ tf_ (false, leaf_.2) tr_ tl_ (stock_.push_back ex))
            (stock_.push_back ex) g with
        | some (node dim1 tf1 leaf1 tr1 tl1 _, g1) => some (node dim1 tf1 leaf1 tr1 tl1 [], g1)
        | _ => none
      else some (node dim_ tf_ leaf_ tr_ tl_ (stock_.push_back ex), g)

/-- A sequence of `train1` calls, one per ex, in order. -/
def train1_seq [LinearOrder S] [Add S] [Mul S] [NatCast S] (c : Collab Y X L TF G S)
    (trp : TreeTrainingParameters S) :
    Tree Y X L TF → List (Y × X) → G → Option (Tree Y X L TF × G)
  | t, [], g => some (t, g)
  | t, ex :: rest, g =>
    match train1 c trp t ex g with
    | none => none
    | some (t1, g1) => train1_seq c trp t1 rest g1

/-- The tree object with its `stock_` emptied (`stock_.clear()`). -/
def clear_stock : Tree Y X L TF → Tree Y X L TF
  | null => null
  | node dim_ tf_ leaf_ tr_ tl_ _ => node dim_ tf_ leaf_ tr_ tl_ []

/-- The structural invariant of the specification: a node whose leaf flag is
false has two non-null children, which satisfy the invariant; a node whose
leaf flag is true has two null child pointers. -/
def structInv : Tree Y X L TF → Prop
  | null => False
  | node _ _ leaf_ tr_ tl_ _ =>
    if leaf_.1 then tr_ = null ∧ tl_ = null
    else structInv tr_ ∧ structInv tl_

/-- The part of the structural invariant that concerns internal nodes: a node
whose leaf flag is false has two non-null children, which satisfy the same
condition; nothing is asked of the child pointers of a node whose leaf flag is
true. -/
def internalInv : Tree Y X L TF → Prop
  | null => False
  | node _ _ leaf_ tr_ tl_ _ =>
    if leaf_.1 then True
    else internalInv tr_ ∧ internalInv tl_

/-- The leaf flag of a tree object. -/
def isLeaf : Tree Y X L TF → Bool
  | null => false
  | node _ _ leaf_ _ _ _ => leaf_.1

end Tree

/-! ## Text streams -/

/-- The tab character. -/
def TAB : Char := Char.ofNat 9

/-- The newline character written by `std::endl`. -/
def NL : Char := Char.ofNat 10

/-- `isspace` of the classic locale: space, and the characters 9 to 13. -/
def isspace (ch : Char) : Bool :=
  ch.toNat == 32 || (decide (9 ≤ ch.toNat) && decide (ch.toNat ≤ 13))

/-- Decimal digits. -/
def isdigit (ch : Char) : Bool :=
  decide (48 ≤ ch.toNat) && decide (ch.toNat ≤ 57)

/-- The largest `int`. -/
def INT_MAX : Int := 2147483647

/-- The smallest `int`. -/
def INT_MIN : Int := -2147483648

/-- The value of a run of decimal digits. -/
def digitsValue (ds : List Char) : Nat :=
  ds.foldl (fun a d => 10 * a + (d.toNat - 48)) 0

/-- Formatted extraction `stream >> int` on a fresh `stringstream` over `s`:
leading white space is skipped, an optional sign and a run of digits are
consumed. The result is the value stored, whether the stream is still good, and
the unread rest. Without digits the stored value is 0 and the stream fails; a
value outside the range of `int` is clamped and the stream fails. -/
def readInt (s : List Char) : Int × Bool × List Char :=
  let s1 := s.dropWhile isspace
  let neg : Bool := match s1 with
    | ch :: _ => ch == '-'
    | [] => false
  let s2 := match s1 with
    | ch :: r => if ch == '-' || ch == '+' then r else s1
    | [] => s1
  let ds := s2.takeWhile isdigit
  let rest := s2.dropWhile isdigit
  if ds.isEmpty then (0, false, rest)
  else
    let v : Int := if neg then -(digitsValue ds : Int) else (digitsValue ds : Int)
    if v < INT_MIN then (INT_MIN, false, rest)
    else if INT_MAX < v then (INT_MAX, false, rest)
    else (v, true, rest)

/-- Formatted extraction `stream >> str` into an empty string: when the stream
is good, white space is skipped and the characters up to the next white space
are taken; a failed stream leaves the string empty. -/
def readToken (good : Bool) (s : List Char) : List Char :=
  if good then (s.dropWhile isspace).takeWhile (fun ch => !(isspace ch)) else []

/-- The digit character of `d < 10`. -/
def digitChar (d : Nat) : Char := Char.ofNat (48 + d)

/-- Decimal output of an unsigned number, least significant digit first into
an accumulator, with a budget of steps. -/
def showNatAux : Nat → Nat → List Char → List Char
  | 0, _, acc => acc
  | f + 1, n, acc =>
    if n < 10 then digitChar n :: acc
    else showNatAux f (n / 10) (digitChar (n % 10) :: acc)

/-- Formatted output `stream << n` of an unsigned number. -/
def showNat (n : Nat) : List Char := showNatAux (n + 1) n []

/-- The loop `while(getline(ifs, buf))` over the rest of a file, with the
characters of the current line read so far. -/
def getlinesAux : List Char → List Char → List (List Char)
  | [], buf => if buf.isEmpty then [] else [buf]
  | ch :: rest, buf =>
    if ch == NL then buf :: getlinesAux rest [] else getlinesAux rest (buf ++ [ch])

/-- All lines of a file as `getline` returns them. -/
def getlines (file : List Char) : List (List Char) := getlinesAux file []

/-! ## Tree: serialization -/

namespace Tree

variable {Y X L TF G S : Type}

/-- `Tree::serialize` (tree.h, lines 126-134). -/
def serialize (c : Collab Y X L TF G S) : Tree Y X L TF → Option (List Char)
  | null => none
  | node _ tf_ leaf_ _ _ _ =>
    if leaf_.1 then
      match leaf_.2 with
      | some v => some (['1', TAB] ++ c.leafSerialize v ++ [NL])
      | none => none
    else some (['0', TAB] ++ c.tfSerialize tf_ ++ [NL])

/-- `Tree::deserialize` (tree.h, lines 136-151). -/
def deserialize (c : Collab Y X L TF G S) : Tree Y X L TF → List Char → Option (Tree Y X L TF)
  | null, _ => none
  | node dim_ tf_ leaf_ tr_ tl_ stock_, s =>
    let is_leaf := (readInt s).1
    let str := readToken (readInt s).2.1 (readInt s).2.2
    if is_leaf = 1 then
      some (node dim_ tf_ (true, some (c.leafDeserialize str)) tr_ tl_ stock_)
    else
      some (node dim_ (c.tfDeserialize tf_ str) (false, leaf_.2) tr_ tl_ stock_)

/-- `Tree::recursive_serialize` (tree.h, lines 153-159). -/
def recursive_serialize (c : Collab Y X L TF G S) :
    Tree Y X L TF → List (List Char) → Option (List (List Char))
  | null, _ => none
  | node dim_ tf_ leaf_ tr_ tl_ stock_, dq =>
    match serialize c (node dim_ tf_ leaf_ tr_ tl_ stock_) with
    | none => none
    | some line =>
      if !leaf_.1 then
        match recursive_serialize c tr_ (dq ++ [line]) with
        | none => none
        | some dq1 => recursive_serialize c tl_ dq1
      else some (dq ++ [line])

/-- `Tree::recursive_deserialize` (tree.h, lines 161-172) with a recursion
budget; the result is the tree and the queue that is left. A failed assertion,
an empty pointer and an exhausted budget are `none`. -/
def recursive_deserializeAux (c : Collab Y X L TF G S) :
    Nat → Tree Y X L TF → List (List Char) → Option (Tree Y X L TF × List (List Char))
  | _, null, _ => none
  | _, node _ _ _ _ _ _, [] => none
  | 0, node _ _ _ _ _ _, _ :: _ => none
  | fuel + 1, node dim_ tf_ leaf_ tr_ tl_ stock_, s :: dq =>
    match deserialize c (node dim_ tf_ leaf_ tr_ tl_ stock_) s with
    | some (node dim1 tf1 leaf1 tr1 tl1 stock1) =>
      if !leaf1.1 then
        match recursive_deserializeAux c fuel (new dim1 tf1) dq with
        | none => none
        | some (tr2, dq1) =>
          match recursive_deserializeAux c fuel (new dim1 tf1) dq1 with
          | none => none
          | some (tl2, dq2) => some (node dim1 tf1 leaf1 tr2 tl2 stock1, dq2)
      else some (node dim1 tf1 leaf1 tr1 tl1 stock1, dq)
    | _ => none

/-- `Tree::recursive_deserialize`: every call pops a line, so a budget of the
length of the queue is never exhausted. -/
def recursive_deserialize (c : Collab Y X L TF G S) (t : Tree Y X L TF)
    (dq : List (List Char)) : Option (Tree Y X L TF × List (List Char)) :=
  recursive_deserializeAux c dq.length t dq

end Tree

/-- The logical content of a tree: a leaf with its value, or an internal node
with its test, its right and its left subtree (section 3 of the
specification). -/
inductive Shape (L TF : Type) where
  | leaf (v : L) : Shape L TF
  | internal (tf : TF) (r l : Shape L TF) : Shape L TF
  deriving DecidableEq, Repr

namespace Tree

variable {Y X L TF G S : Type}

/-- The logical content of a tree object, when the tree is well formed: a
node flagged as leaf holds a value, a node not flagged as leaf has two
well-formed children. Fields that are not read in that state are ignored. -/
def shape : Tree Y X L TF → Option (Shape L TF)
  | null => none
  | node _ tf_ leaf_ tr_ tl_ _ =>
    if leaf_.1 then
      match leaf_.2 with
      | some v => some (Shape.leaf v)
      | none => none
    else
      match shape tr_, shape tl_ with
      | some r, some l => some (Shape.internal tf_ r l)
      | _, _ => none

end Tree

/-- Routing an input through a shape: true goes right, false goes left. -/
def Shape.predict {Y X L TF G S : Type} (c : Collab Y X L TF G S) : Shape L TF → X → L
  | Shape.leaf v, _ => v
  | Shape.internal tf r l, x => if c.tfEval tf x then Shape.predict c r x else Shape.predict c l x

/-- The text of a shape as the specification describes it (section 4.4): one
line per node, flag 1 and the leaf payload for a leaf, flag 0 and the test
payload for an internal node; the node line first, then the whole right
subtree, then the whole left subtree. -/
def Shape.lines {Y X L TF G S : Type} (c : Collab Y X L TF G S) : Shape L TF → List (List Char)
  | Shape.leaf v => [['1', TAB] ++ c.leafSerialize v ++ [NL]]
  | Shape.internal tf r l =>
    (['0', TAB] ++ c.tfSerialize tf ++ [NL]) :: (Shape.lines c r ++ Shape.lines c l)

/-- The lines of a shape with every line ended by `eol` instead of a newline:
with an empty `eol` these are the lines as `getline` returns them. -/
def Shape.rows {Y X L TF G S : Type} (c : Collab Y X L TF G S) (eol : List Char) :
    Shape L TF → List (List Char)
  | Shape.leaf v => [['1', TAB] ++ c.leafSerialize v ++ eol]
  | Shape.internal tf r l =>
    (['0', TAB] ++ c.tfSerialize tf ++ eol) :: (Shape.rows c eol r ++ Shape.rows c eol l)

/-- The leaf values of a shape, right subtree first. -/
def Shape.leaves {L TF : Type} : Shape L TF → List L
  | Shape.leaf v => [v]
  | Shape.internal _ r l => Shape.leaves r ++ Shape.leaves l

/-- The depth of a shape: 0 for a leaf. -/
def Shape.depth {L TF : Type} : Shape L TF → Nat
  | Shape.leaf _ => 0
  | Shape.internal _ r l => 1 + max (Shape.depth r) (Shape.depth l)

/-- Routing an example set through the tests of a shape: for every leaf, right
subtree first, the examples that reach it, in their original order. -/
def Shape.leafData {Y X L TF G S : Type} (c : Collab Y X L TF G S) :
    Shape L TF → ExampleSet Y X → List (ExampleSet Y X)
  | Shape.leaf _, data => [data]
  | Shape.internal tf r l, data =>
    Shape.leafData c r (Tree.split c tf data).1 ++ Shape.leafData c l (Tree.split c tf data).2

/-- The examples of `data` that reach the leaf that the input `x` reaches. -/
def Shape.reach {Y X L TF G S : Type} (c : Collab Y X L TF G S) :
    Shape L TF → ExampleSet Y X → X → ExampleSet Y X
  | Shape.leaf _, data, _ => data
  | Shape.internal tf r l, data, x =>
    if c.tfEval tf x then Shape.reach c r (Tree.split c tf data).1 x
    else Shape.reach c l (Tree.split c tf data).2 x

/-- The calls of `train` that end in the leaves of a shape, right subtree
first, when the shape is grown by a `train` call on a node with prototype test
`tf0`, over `data`, from the random state `g`: for every leaf the prototype
test of its node (the test of its parent), the examples it was called on, and
the random state at the start of that call. A call that passes the stopping
rule draws `nsamplings` candidates before anything else; the right child is
trained before the left one. The second component is the random state at the
end. -/
def Shape.leafCtx {Y X L TF G S : Type} [LinearOrder S] (c : Collab Y X L TF G S)
    (trp : TreeTrainingParameters S) :
    Shape L TF → TF → ExampleSet Y X → G → List (TF × ExampleSet Y X × G) × G
  | Shape.leaf _, tf0, data, g =>
    ([(tf0, data, g)],
      if c.objfunc data.Y_ ≤ trp.objfunc_th ∨ (data.length : Int) ≤ trp.nexamples_th then g
      else Tree.sampleState c tf0 trp.nsamplings.toNat g)
  | Shape.internal tf r l, tf0, data, g =>
    ((Shape.leafCtx c trp r tf (Tree.split c tf data).1
          (Tree.sampleState c tf0 trp.nsamplings.toNat g)).1 ++
        (Shape.leafCtx c trp l tf (Tree.split c tf data).2
          (Shape.leafCtx c trp r tf (Tree.split c tf data).1
            (Tree.sampleState c tf0 trp.nsamplings.toNat g)).2).1,
      (Shape.leafCtx c trp l tf (Tree.split c tf data).2
        (Shape.leafCtx c trp r tf (Tree.split c tf data).1
          (Tree.sampleState c tf0 trp.nsamplings.toNat g)).2).2)

/-- The number of nodes of a shape. -/
def Shape.size {L TF : Type} : Shape L TF → Nat
  | Shape.leaf _ => 1
  | Shape.internal _ r l => 1 + Shape.size r + Shape.size l

/-- The assumption on payloads made by the serialization claims: every
`TestFunc` and `LeafType` payload is a non-empty token without white space
that the matching `deserialize` inverts. -/
structure PayloadOK {Y X L TF G S : Type} (c : Collab Y X L TF G S) : Prop where
  tf_nonempty : ∀ tf, c.tfSerialize tf ≠ []
  tf_nospace : ∀ tf ch, ch ∈ c.tfSerialize tf → isspace ch = false
  tf_inverse : ∀ tf0 tf, c.tfDeserialize tf0 (c.tfSerialize tf) = tf
  leaf_nonempty : ∀ v, c.leafSerialize v ≠ []
  leaf_nospace : ∀ v ch, ch ∈ c.leafSerialize v → isspace ch = false
  leaf_inverse : ∀ v, c.leafDeserialize (c.leafSerialize v) = v

/-! ## Forest -/

/-- The class `Forest` (forest.h, lines 26-28). -/
structure Forest (Y X L TF : Type) where
  dim_ : Int
  tf_ : TF
  trees_ : List (Tree Y X L TF)
  deriving DecidableEq, Repr

namespace Forest

variable {Y X L TF G S : Type}

/-- The constructor `Forest(dim, tf)` (forest.h, lines 30-32). -/
def new (dim : Int) (tf : TF) : Forest Y X L TF := ⟨dim, tf, []⟩

/-- The loop of `Forest::predict` (forest.h, lines 35-37): one result per tree,
in ensemble order; the reduction `set2result` belongs to `LeafType`. -/
def results (c : Collab Y X L TF G S) (F : Forest Y X L TF) (x : X) : List (Option L) :=
  F.trees_.map (fun t => Tree.predict c t x)

/-- The inner loop of lines 50-52: up to `m` entries are moved from the iterator
`it` to `subidxs`, stopping early at the end of the index vector. The result
is `subidxs` and the advanced iterator. -/
def takeBlock : Nat → List Nat → List Nat × List Nat
  | 0, it => ([], it)
  | _ + 1, [] => ([], [])
  | j + 1, i :: it => (i :: (takeBlock j it).1, (takeBlock j it).2)

/-- The outer loop of lines 48-54, `k` rounds with block size bound `m`. -/
def subidxsLoop (m : Nat) : Nat → List Nat → List (List Nat)
  | 0, _ => []
  | k + 1, it => (takeBlock m it).1 :: subidxsLoop m k (takeBlock m it).2

/-- The vector `subidxs_set` built by lines 46-54 from the shuffled index
vector. The quotient `idxs.size()/trp.ntrees` is only evaluated inside the outer
loop, hence for `ntrees ≥ 1`. -/
def subidxs_set (idxs : List Nat) (ntrees : Int) : List (List Nat) :=
  subidxsLoop (idxs.length / ntrees.toNat) ntrees.toNat idxs

/-- The training loop of lines 59-64 over the trees and their index blocks,
in index order. -/
def trainLoop [LinearOrder S] [Add S] [Mul S] [NatCast S] (c : Collab Y X L TF G S)
    (trp : TreeTrainingParameters S) (data : ExampleSet Y X) :
    List (Tree Y X L TF) → List (List Nat) → G → Option (List (Tree Y X L TF) × G)
  | [], _, g => some ([], g)
  | _ :: _, [], _ => none
  | t :: ts, subidxs :: rest, g =>
    match ExampleSet.subset data subidxs [] with
    | none => none
    | some partofdata =>
      match Tree.train c trp t partofdata g with
      | none => none
      | some (t1, g1) =>
        match trainLoop c trp data ts rest g1 with
        | none => none
        | some (ts1, g2) => some (t1 :: ts1, g2)

/-- `Forest::train` (forest.h, lines 42-65). -/
def train [LinearOrder S] [Add S] [Mul S] [NatCast S] (c : Collab Y X L TF G S)
    (trp : ForestTrainingParameters S) (F : Forest Y X L TF) (data : ExampleSet Y X) (g : G) :
    Option (Forest Y X L TF × G) :=
  let idxs := List.range data.length
  let sh := c.random_shuffle idxs g
  let subs := subidxs_set sh.1 trp.ntrees
  let trees0 : List (Tree Y X L TF) := List.replicate trp.ntrees.toNat (Tree.new F.dim_ F.tf_)
  match trainLoop c trp.tree_trp data trees0 subs sh.2 with
  | none => none
  | some (ts, g1) => some (⟨F.dim_, F.tf_, ts⟩, g1)

/-- The loop of `Forest::save` (forest.h, lines 72-75): the lines of every tree,
each followed by a separate newline entry. -/
def saveLoop (c : Collab Y X L TF G S) :
    List (Tree Y X L TF) → List (List Char) → Option (List (List Char))
  | [], dq => some dq
  | t :: ts, dq =>
    match Tree.recursive_serialize c t dq with
    | none => none
    | some dq1 => saveLoop c ts (dq1 ++ [[NL]])

/-- `Forest::save` (forest.h, lines 67-82): the contents written to the file. -/
def save (c : Collab Y X L TF G S) (F : Forest Y X L TF) : Option (List Char) :=
  match saveLoop c F.trees_ [] with
  | none => none
  | some dq => some (showNat F.trees_.length ++ [NL] ++ dq.flatten)

/-- The loop of `Forest::load` (forest.h, lines 100-103). -/
def loadLoop (c : Collab Y X L TF G S) (dim : Int) (tf : TF) :
    Nat → List (Tree Y X L TF) → List (List Char) →
      Option (List (Tree Y X L TF) × List (List Char))
  | 0, trees, dq => some (trees, dq)
  | n + 1, trees, dq =>
    match Tree.recursive_deserialize c (Tree.new dim tf) dq with
    | none => none
    | some (t, dq1) => loadLoop c dim tf n (trees ++ [t]) dq1

/-- `Forest::load` (forest.h, lines 84-105) on the contents of the file: the
non-empty lines are queued, the count is read from the first one (reading
`dq[0]` of an empty queue is `none`), then the trees are read one by one. -/
def load (c : Collab Y X L TF G S) (F : Forest Y X L TF) (file : List Char) :
    Option (Forest Y X L TF) :=
  match (getlines file).filter (fun buf => !buf.isEmpty) with
  | [] => none
  | s :: dq =>
    match loadLoop c F.dim_ F.tf_ (readInt s).1.toNat [] dq with
    | none => none
    | some (ts, _) => some ⟨F.dim_, F.tf_, ts⟩

end Forest

/-! ## Concrete collaborators used in examples -/

/-- A threshold test on natural-number features: `tfEval k x` is `k ≤ x`.
Sampling takes the next threshold from a list that plays the role of the random
source; a leaf keeps the list of its labels. -/
def thrCollab (obj : List Nat → Int) (big : Int) :
    Collab Nat Nat (List Nat) Nat (List Nat) Int where
  tfEval := fun k x => decide (k ≤ x)
  random_sample := fun tf g =>
    match g with
    | [] => (tf, [])
    | k :: g1 => (k, g1)
  tfDefault := 0
  tfSerialize := fun k => showNat k
  tfDeserialize := fun _ s => digitsValue s
  leafFromLabels := fun ys => ys
  leafSerialize := fun _ => []
  leafDeserialize := fun _ => []
  objfunc := obj
  dblMax := big
  random_shuffle := fun l g => (l.reverse, g)

/-- The same threshold test with a leaf that keeps the sum of its labels,
written in decimal. -/
def sumCollab (obj : List Nat → Int) (big : Int) : Collab Nat Nat Nat Nat (List Nat) Int where
  tfEval := fun k x => decide (k ≤ x)
  random_sample := fun tf g =>
    match g with
    | [] => (tf, [])
    | k :: g1 => (k, g1)
  tfDefault := 0
  tfSerialize := fun k => showNat k
  tfDeserialize := fun _ s => digitsValue s
  leafFromLabels := fun ys => ys.sum
  leafSerialize := fun v => showNat v
  leafDeserialize := fun s => digitsValue s
  objfunc := obj
  dblMax := big
  random_shuffle := fun l g => (l.reverse, g)

/-- A label collection with a single label value: it is not empty and all its
labels are equal. -/
def SingleValued {Y : Type} (ys : List Y) : Prop :=
  ∃ y, y ∈ ys ∧ ∀ z, z ∈ ys → z = y

/-- An objective that is 0 on label lists with a single label value and 1 on
all others, the empty list included. -/
def singleObj : List Nat → Int
  | [] => 1
  | y :: rest => if rest.all (fun z => z == y) then 0 else 1

/-- Nine examples with the labels 7 and 8 alternating. -/
def nineExamples : ExampleSet Nat Nat :=
  [(7, 1), (8, 2), (7, 3), (8, 4), (7, 5), (8, 6), (7, 7), (8, 8), (7, 9)]

/-- Nine examples whose label is 7 for the features below 5 and 8 from 5 on. -/
def nineSorted : ExampleSet Nat Nat :=
  [(7, 1), (7, 2), (7, 3), (7, 4), (8, 5), (8, 6), (8, 7), (8, 8), (8, 9)]

/-- A tree over the threshold collaborator with one split at threshold 3 and
two leaves holding the labels `[8]` and `[7]`. -/
def exTreeL : Tree Nat Nat (List Nat) Nat :=
  Tree.node 1 3 (false, none) (Tree.node 1 3 (true, some [8]) Tree.null Tree.null [])
    (Tree.node 1 3 (true, some [7]) Tree.null Tree.null []) []

/-- An objective that is 0 on label lists with at most one distinct value and
`big` on all others. -/
def bigObj (big : Int) (ys : List Nat) : Int :=
  if ys.dedup.length ≤ 1 then 0 else big

/-- The threshold collaborator with another default-constructed test. -/
def thrCollabD (obj : List Nat → Int) (big : Int) (d : Nat) :
    Collab Nat Nat (List Nat) Nat (List Nat) Int :=
  { thrCollab obj big with tfDefault := d }

/-- A tree with one split at threshold 3 and two leaves holding 8 and 14. -/
def exTree : Tree Nat Nat Nat Nat :=
  Tree.node 1 3 (false, none) (Tree.node 1 3 (true, some 8) Tree.null Tree.null [])
    (Tree.node 1 3 (true, some 14) Tree.null Tree.null []) []

/-- A forest of three trees over the sum collaborator. -/
def exForest : Forest Nat Nat Nat Nat :=
  ⟨1, 0, [Tree.node 1 4 (false, none) (Tree.node 1 4 (true, some 8) Tree.null Tree.null [])
      (Tree.node 1 4 (true, some 7) Tree.null Tree.null []) [],
    Tree.node 1 0 (true, some 15) Tree.null Tree.null [],
    Tree.node 1 0 (true, some 15) Tree.null Tree.null []]⟩

/-- An objective that is 0 on label lists with at most one distinct value and
1 otherwise. -/
def pureObj (ys : List Nat) : Int :=
  if ys.dedup.length ≤ 1 then 0 else 1

/-! ## TreeTrainingParameters -/

/-- C1: construction succeeds exactly when `objfunc_th < objfunc_restart_th`
and `nexamples_th < nexamples_restart_th`; it fails for all arguments with
`a ≥ b` or `c ≥ d`; on success the fields hold exactly the given arguments. -/
theorem TreeTrainingParameters.new_spec {S : Type} [LinearOrder S]
    (a b : S) (c d n : Int) (chatty : Bool) :
    ((TreeTrainingParameters.new a b c d n chatty).isSome = true ↔ (a < b ∧ c < d)) ∧
    ((a ≥ b ∨ c ≥ d) → TreeTrainingParameters.new a b c d n chatty = none) ∧
    (∀ p, TreeTrainingParameters.new a b c d n chatty = some p →
      p.objfunc_th = a ∧ p.objfunc_restart_th = b ∧ p.nexamples_th = c ∧
      p.nexamples_restart_th = d ∧ p.nsamplings = n ∧ p.chatty_ = chatty) := by
  unfold TreeTrainingParameters.new
  refine ⟨?_, ?_, ?_⟩
  · by_cases h1 : a < b <;> by_cases h2 : c < d <;> simp [h1, h2]
  · rintro (h | h)
    · simp [not_lt.mpr h]
    · by_cases h1 : a < b <;> simp [h1, not_lt.mpr h]
  · intro p hp
    by_cases h1 : a < b <;> by_cases h2 : c < d <;> simp [h1, h2] at hp
    subst hp
    simp

/-- Witness for C1: the default arguments are accepted, equal thresholds are not. -/
theorem TreeTrainingParameters.new_spec_witness :
    (TreeTrainingParameters.new (0 : Int) 1 1 500 300 false).isSome = true ∧
    TreeTrainingParameters.new (1 : Int) 1 1 500 300 false = none :=
  ⟨(TreeTrainingParameters.new_spec (0 : Int) 1 1 500 300 false).1.mpr ⟨by decide, by decide⟩,
   (TreeTrainingParameters.new_spec (1 : Int) 1 1 500 300 false).2.1 (Or.inl (le_refl _))⟩

/-! ## Tree.train: unfolding and budget lemmas -/

namespace Tree

variable {Y X L TF G S : Type}

theorem split_length (c : Collab Y X L TF G S) (tf : TF) (data : ExampleSet Y X) :
    (split c tf data).1.length + (split c tf data).2.length = data.length := by
  show (data.filter (fun ex => c.tfEval tf ex.2)).length
    + (data.filter (fun ex => !(c.tfEval tf ex.2))).length = data.length
  induction data with
  | nil => rfl
  | cons ex rest ih =>
    simp only [List.filter_cons]
    cases h : c.tfEval tf ex.2 <;> simp <;> omega

theorem trainAux_succ [LinearOrder S] [Add S] [Mul S] [NatCast S] (c : Collab Y X L TF G S)
    (trp : TreeTrainingParameters S) (fuel : Nat)
    (dim_ : Int) (tf_ : TF) (leaf_ : Bool × Option L) (tr_ tl_ : Tree Y X L TF)
    (stock_ data : ExampleSet Y X) (g : G) :
    trainAux c trp (fuel + 1) (node dim_ tf_ leaf_ tr_ tl_ stock_) data g =
      if c.objfunc data.Y_ ≤ trp.objfunc_th ∨ (data.length : Int) ≤ trp.nexamples_th then
        some (node dim_ tf_ (true, some (c.leafFromLabels data.Y_)) tr_ tl_ stock_, g)
      else
        if (split c (bestSearch c trp tf_ data g).2.1 data).1.length = 0 ∨
            (split c (bestSearch c trp tf_ data g).2.1 data).2.length = 0 then
          some (node dim_ tf_ (true, some (c.leafFromLabels data.Y_)) tr_ tl_ stock_,
            (bestSearch c trp tf_ data g).2.2)
        else
          match trainAux c trp fuel (new dim_ (bestSearch c trp tf_ data g).2.1)
              (split c (bestSearch c trp tf_ data g).2.1 data).1
              (bestSearch c trp tf_ data g).2.2 with
          | none => none
          | some (tr1, g1) =>
            match trainAux c trp fuel (new dim_ (bestSearch c trp tf_ data g).2.1)
                (split c (bestSearch c trp tf_ data g).2.1 data).2 g1 with
            | none => none
            | some (tl1, g2) =>
              some (node dim_ (bestSearch c trp tf_ data g).2.1 (false, leaf_.2) tr1 tl1 stock_,
                g2) := rfl

/-- The sampling loop keeps the running minimum: either no candidate is
strictly below the initial `mine` and the state is unchanged, or the result is
the earliest candidate of minimal impurity, which is strictly below `mine`. -/
theorem search_spec [LinearOrder S] [Add S] [Mul S] [NatCast S] (c : Collab Y X L TF G S)
    (tf_ : TF) (data : ExampleSet Y X) :
    ∀ (n : Nat) (mine : S) (best : TF) (g : G),
      (search c tf_ data n (mine, best, g)).2.2 = sampleState c tf_ n g ∧
      (((∀ t, t ∈ candidates c tf_ n g → ¬ impurity c t data < mine) ∧
          (search c tf_ data n (mine, best, g)).1 = mine ∧
          (search c tf_ data n (mine, best, g)).2.1 = best) ∨
        (∃ pre post, candidates c tf_ n g =
            pre ++ (search c tf_ data n (mine, best, g)).2.1 :: post ∧
          (search c tf_ data n (mine, best, g)).1 =
            impurity c (search c tf_ data n (mine, best, g)).2.1 data ∧
          (search c tf_ data n (mine, best, g)).1 < mine ∧
          (∀ t, t ∈ pre → (search c tf_ data n (mine, best, g)).1 < impurity c t data) ∧
          (∀ t, t ∈ post → (search c tf_ data n (mine, best, g)).1 ≤ impurity c t data))) := by
  intro n
  induction n with
  | zero =>
    intro mine best g
    exact ⟨rfl, Or.inl ⟨by simp [candidates], rfl, rfl⟩⟩
  | succ n ih =>
    intro mine best g
    by_cases he : impurity c (c.random_sample tf_ g).1 data < mine
    · have hs : search c tf_ data (n + 1) (mine, best, g) =
          search c tf_ data n (impurity c (c.random_sample tf_ g).1 data,
            (c.random_sample tf_ g).1, (c.random_sample tf_ g).2) := by
        simp only [search, he, if_true]
      rw [hs]
      obtain ⟨hg, h⟩ := ih (impurity c (c.random_sample tf_ g).1 data)
        (c.random_sample tf_ g).1 (c.random_sample tf_ g).2
      refine ⟨by rw [hg]; rfl, Or.inr ?_⟩
      rcases h with ⟨h1, h2, h3⟩ | ⟨pre, post, h1, h2, h3, h4, h5⟩
      · refine ⟨[], candidates c tf_ n (c.random_sample tf_ g).2, ?_, ?_, ?_, ?_, ?_⟩
        · rw [h3]; rfl
        · rw [h2, h3]
        · rw [h2]; exact he
        · intro t ht; simp at ht
        · intro t ht; rw [h2]; exact not_lt.mp (h1 t ht)
      · refine ⟨(c.random_sample tf_ g).1 :: pre, post, ?_, h2, lt_trans h3 he, ?_, h5⟩
        · simp only [candidates, List.cons_append]; rw [← h1]
        · intro t ht
          rcases List.mem_cons.mp ht with rfl | ht
          · exact h3
          · exact h4 t ht
    · have hs : search c tf_ data (n + 1) (mine, best, g) =
          search c tf_ data n (mine, best, (c.random_sample tf_ g).2) := by
        simp only [search, he, if_false]
      rw [hs]
      obtain ⟨hg, h⟩ := ih mine best (c.random_sample tf_ g).2
      refine ⟨by rw [hg]; rfl, ?_⟩
      rcases h with ⟨h1, h2, h3⟩ | ⟨pre, post, h1, h2, h3, h4, h5⟩
      · refine Or.inl ⟨?_, h2, h3⟩
        intro t ht
        rcases List.mem_cons.mp ht with rfl | ht
        · exact he
        · exact h1 t ht
      · refine Or.inr ⟨(c.random_sample tf_ g).1 :: pre, post, ?_, h2, h3, ?_, h5⟩
        · simp only [candidates, List.cons_append]; rw [← h1]
        · intro t ht
          rcases List.mem_cons.mp ht with rfl | ht
          · exact lt_of_lt_of_le h3 (not_lt.mp he)
          · exact h4 t ht

/-- The result of `trainAux` does not depend on the budget once the budget
exceeds the number of examples. -/
theorem trainAux_fuel [LinearOrder S] [Add S] [Mul S] [NatCast S] (c : Collab Y X L TF G S)
    (trp : TreeTrainingParameters S) :
    ∀ (f1 f2 : Nat) (t : Tree Y X L TF) (data : ExampleSet Y X) (g : G),
      data.length < f1 → data.length < f2 →
      trainAux c trp f1 t data g = trainAux c trp f2 t data g := by
  intro f1
  induction f1 with
  | zero => intro f2 t data g h; omega
  | succ f1 ih =>
    intro f2 t data g h1 h2
    obtain ⟨f2, rfl⟩ : ∃ k, f2 = k + 1 := ⟨f2 - 1, by omega⟩
    cases t with
    | null => rfl
    | node dim_ tf_ leaf_ tr_ tl_ stock_ =>
      rw [trainAux_succ, trainAux_succ]
      split_ifs with hs hd
      · rfl
      · rfl
      · have hlen := split_length c (bestSearch c trp tf_ data g).2.1 data
        have hr : (split c (bestSearch c trp tf_ data g).2.1 data).1.length < data.length := by
          omega
        have hl : (split c (bestSearch c trp tf_ data g).2.1 data).2.length < data.length := by
          omega
        rw [ih f2 _ _ _ (by omega) (by omega)]
        cases trainAux c trp f2 (new dim_ (bestSearch c trp tf_ data g).2.1)
            (split c (bestSearch c trp tf_ data g).2.1 data).1
            (bestSearch c trp tf_ data g).2.2 with
        | none => rfl
        | some r =>
          obtain ⟨tr1, g1⟩ := r
          simp only
          rw [ih f2 _ _ _ (by omega) (by omega)]

/-- Totality of `trainAux` on tree objects: a budget above the number of
examples is never exhausted. -/
theorem trainAux_isSome [LinearOrder S] [Add S] [Mul S] [NatCast S] (c : Collab Y X L TF G S)
    (trp : TreeTrainingParameters S) :
    ∀ (fuel : Nat) (dim_ : Int) (tf_ : TF) (leaf_ : Bool × Option L) (tr_ tl_ : Tree Y X L TF)
      (stock_ data : ExampleSet Y X) (g : G), data.length < fuel →
      (trainAux c trp fuel (node dim_ tf_ leaf_ tr_ tl_ stock_) data g).isSome = true := by
  intro fuel
  induction fuel with
  | zero => intro _ _ _ _ _ _ data g h; omega
  | succ fuel ih =>
    intro dim_ tf_ leaf_ tr_ tl_ stock_ data g h
    rw [trainAux_succ]
    split_ifs with hs hd
    · rfl
    · rfl
    · have hlen := split_length c (bestSearch c trp tf_ data g).2.1 data
      have h1 := ih dim_ (bestSearch c trp tf_ data g).2.1 (true, none) null null []
        (split c (bestSearch c trp tf_ data g).2.1 data).1 (bestSearch c trp tf_ data g).2.2
        (by omega)
      rw [Option.isSome_iff_exists] at h1
      obtain ⟨⟨tr1, g1⟩, h1⟩ := h1
      have h2 := ih dim_ (bestSearch c trp tf_ data g).2.1 (true, none) null null []
        (split c (bestSearch c trp tf_ data g).2.1 data).2 g1 (by omega)
      rw [Option.isSome_iff_exists] at h2
      obtain ⟨⟨tl1, g2⟩, h2⟩ := h2
      simp only [new] at h1 h2 ⊢
      rw [h1]
      simp only
      rw [h2]
      rfl

/-- The base case of `Tree::train`. -/
theorem train_leaf_of_stop [LinearOrder S] [Add S] [Mul S] [NatCast S] (c : Collab Y X L TF G S)
    (trp : TreeTrainingParameters S) (dim_ : Int) (tf_ : TF) (leaf_ : Bool × Option L)
    (tr_ tl_ : Tree Y X L TF) (stock_ data : ExampleSet Y X) (g : G)
    (h : c.objfunc data.Y_ ≤ trp.objfunc_th ∨ (data.length : Int) ≤ trp.nexamples_th) :
    train c trp (node dim_ tf_ leaf_ tr_ tl_ stock_) data g =
      some (node dim_ tf_ (true, some (c.leafFromLabels data.Y_)) tr_ tl_ stock_, g) := by
  unfold train
  rw [trainAux_succ, if_pos h]

/-- `train` never reads the leaf flag of the node it is called on. -/
theorem train_flag_irrel [LinearOrder S] [Add S] [Mul S] [NatCast S] (c : Collab Y X L TF G S)
    (trp : TreeTrainingParameters S) (dim_ : Int) (tf_ : TF) (b1 b2 : Bool) (v : Option L)
    (tr_ tl_ : Tree Y X L TF) (stock_ data : ExampleSet Y X) (g : G) :
    train c trp (node dim_ tf_ (b1, v) tr_ tl_ stock_) data g =
      train c trp (node dim_ tf_ (b2, v) tr_ tl_ stock_) data g := by
  unfold train
  rw [trainAux_succ, trainAux_succ]

/-- The degenerate-split guard of `Tree::train` (lines 113-117). -/
theorem train_of_degenerate [LinearOrder S] [Add S] [Mul S] [NatCast S]
    (c : Collab Y X L TF G S) (trp : TreeTrainingParameters S)
    (dim_ : Int) (tf_ : TF) (leaf_ : Bool × Option L) (tr_ tl_ : Tree Y X L TF)
    (stock_ data : ExampleSet Y X) (g : G)
    (hstop : ¬ (c.objfunc data.Y_ ≤ trp.objfunc_th ∨ (data.length : Int) ≤ trp.nexamples_th))
    (hd : (split c (bestSearch c trp tf_ data g).2.1 data).1.length = 0 ∨
        (split c (bestSearch c trp tf_ data g).2.1 data).2.length = 0) :
    train c trp (node dim_ tf_ leaf_ tr_ tl_ stock_) data g =
      some (node dim_ tf_ (true, some (c.leafFromLabels data.Y_)) tr_ tl_ stock_,
        sampleState c tf_ trp.nsamplings.toNat g) := by
  have hg : (bestSearch c trp tf_ data g).2.2 = sampleState c tf_ trp.nsamplings.toNat g :=
    (search_spec c tf_ data trp.nsamplings.toNat c.dblMax c.tfDefault g).1
  unfold train
  rw [trainAux_succ, if_neg hstop, if_pos hd, hg]

/-- The commit of `Tree::train` (lines 118-123): both children are the results
of `train` on fresh trees over the two partitions, the right one first. -/
theorem train_of_commit [LinearOrder S] [Add S] [Mul S] [NatCast S]
    (c : Collab Y X L TF G S) (trp : TreeTrainingParameters S)
    (dim_ : Int) (tf_ : TF) (leaf_ : Bool × Option L) (tr_ tl_ : Tree Y X L TF)
    (stock_ data : ExampleSet Y X) (g : G)
    (hstop : ¬ (c.objfunc data.Y_ ≤ trp.objfunc_th ∨ (data.length : Int) ≤ trp.nexamples_th))
    (hd : ¬ ((split c (bestSearch c trp tf_ data g).2.1 data).1.length = 0 ∨
        (split c (bestSearch c trp tf_ data g).2.1 data).2.length = 0)) :
    ∃ tr1 g1 tl1 g2,
      train c trp (new dim_ (bestSearch c trp tf_ data g).2.1)
        (split c (bestSearch c trp tf_ data g).2.1 data).1
        (sampleState c tf_ trp.nsamplings.toNat g) = some (tr1, g1) ∧
      train c trp (new dim_ (bestSearch c trp tf_ data g).2.1)
        (split c (bestSearch c trp tf_ data g).2.1 data).2 g1 = some (tl1, g2) ∧
      train c trp (node dim_ tf_ leaf_ tr_ tl_ stock_) data g =
        some (node dim_ (bestSearch c trp tf_ data g).2.1 (false, leaf_.2) tr1 tl1 stock_,
          g2) := by
  have hg : (bestSearch c trp tf_ data g).2.2 = sampleState c tf_ trp.nsamplings.toNat g :=
    (search_spec c tf_ data trp.nsamplings.toNat c.dblMax c.tfDefault g).1
  have hlen := split_length c (bestSearch c trp tf_ data g).2.1 data
  have h1 := trainAux_isSome c trp data.length dim_ (bestSearch c trp tf_ data g).2.1
    (true, none) null null [] (split c (bestSearch c trp tf_ data g).2.1 data).1
    (sampleState c tf_ trp.nsamplings.toNat g) (by omega)
  rw [Option.isSome_iff_exists] at h1
  obtain ⟨⟨tr1, g1⟩, h1⟩ := h1
  have h2 := trainAux_isSome c trp data.length dim_ (bestSearch c trp tf_ data g).2.1
    (true, none) null null [] (split c (bestSearch c trp tf_ data g).2.1 data).2 g1 (by omega)
  rw [Option.isSome_iff_exists] at h2
  obtain ⟨⟨tl1, g2⟩, h2⟩ := h2
  refine ⟨tr1, g1, tl1, g2, ?_, ?_, ?_⟩
  · unfold train
    rw [← h1]
    exact trainAux_fuel c trp _ _ _ _ _ (by omega) (by omega)
  · unfold train
    rw [← h2]
    exact trainAux_fuel c trp _ _ _ _ _ (by omega) (by omega)
  · unfold train
    rw [trainAux_succ, if_neg hstop, if_neg hd, hg]
    simp only [new] at h1 h2 ⊢
    rw [h1]
    simp only
    rw [h2]

/-! ## C2: the stopping rule -/

/-- C2: if the objective of the labels is at most `objfunc_th`, or the number
of examples is at most `nexamples_th`, then `train` on a freshly constructed
tree returns a single leaf without children whose value is built from all the
labels of `data`; the random state is returned untouched, so no candidate was
sampled. -/
theorem train_stop_single_leaf [LinearOrder S] [Add S] [Mul S] [NatCast S]
    (c : Collab Y X L TF G S) (trp : TreeTrainingParameters S) (dim : Int) (tf : TF)
    (data : ExampleSet Y X) (g : G)
    (h : c.objfunc data.Y_ ≤ trp.objfunc_th ∨ (data.length : Int) ≤ trp.nexamples_th) :
    train c trp (new dim tf) data g =
      some (node dim tf (true, some (c.leafFromLabels data.Y_)) null null [], g) :=
  train_leaf_of_stop c trp dim tf (true, none) null null [] data g h

/-- Witness for C2: two examples with the same label and `objfunc_th = 0`. -/
theorem train_stop_single_leaf_witness :
    pureObj (ExampleSet.Y_ [((7 : Nat), (1 : Nat)), (7, 5)]) = 0 ∧
    train (thrCollab pureObj 1000) ⟨0, 1, 1, 500, 300, false⟩ (new 1 0) [(7, 1), (7, 5)]
        [3, 4] =
      some (node 1 0 (true, some [7, 7]) null null [], [3, 4]) :=
  ⟨by decide, train_stop_single_leaf (thrCollab pureObj 1000) ⟨0, 1, 1, 500, 300, false⟩ 1 0
    [(7, 1), (7, 5)] [3, 4] (Or.inl (by decide))⟩

end Tree

/-! ## Decimal numbers -/

theorem isdigit_digitChar (m : Nat) (h : m < 10) : isdigit (digitChar m) = true := by
  interval_cases m <;> decide

theorem digitChar_value (m : Nat) (h : m < 10) : (digitChar m).toNat - 48 = m := by
  interval_cases m <;> decide

theorem digitsValue_append_single (ds : List Char) (d : Char) :
    digitsValue (ds ++ [d]) = 10 * digitsValue ds + (d.toNat - 48) := by
  simp [digitsValue, List.foldl_append]

/-- The digits written for `n`, in front of the accumulator. -/
theorem showNatAux_spec : ∀ (f n : Nat) (acc : List Char), n < f →
    ∃ ds, showNatAux f n acc = ds ++ acc ∧ ds ≠ [] ∧ (∀ ch, ch ∈ ds → isdigit ch = true) ∧
      digitsValue ds = n := by
  intro f
  induction f with
  | zero => intro n acc h; omega
  | succ f ih =>
    intro n acc h
    by_cases h10 : n < 10
    · refine ⟨[digitChar n], by simp [showNatAux, h10], by simp, ?_, ?_⟩
      · intro ch hch
        simp only [List.mem_singleton] at hch
        rw [hch]; exact isdigit_digitChar n h10
      · have := digitsValue_append_single [] (digitChar n)
        simp only [List.nil_append] at this
        rw [this, digitChar_value n h10]; simp [digitsValue]
    · obtain ⟨ds, h1, _, h3, h4⟩ := ih (n / 10) (digitChar (n % 10) :: acc) (by omega)
      have hm : n % 10 < 10 := Nat.mod_lt _ (by decide)
      refine ⟨ds ++ [digitChar (n % 10)], by simp [showNatAux, h10, h1], by simp, ?_, ?_⟩
      · intro ch hch
        rcases List.mem_append.mp hch with hch | hch
        · exact h3 ch hch
        · simp only [List.mem_singleton] at hch
          rw [hch]; exact isdigit_digitChar _ hm
      · rw [digitsValue_append_single, h4, digitChar_value _ hm]; omega

theorem showNat_spec (n : Nat) :
    showNat n ≠ [] ∧ (∀ ch, ch ∈ showNat n → isdigit ch = true) ∧ digitsValue (showNat n) = n := by
  obtain ⟨ds, h1, h2, h3, h4⟩ := showNatAux_spec (n + 1) n [] (by omega)
  have e : showNat n = ds := by simp [showNat, h1]
  rw [e]; exact ⟨h2, h3, h4⟩

theorem isspace_of_isdigit (ch : Char) (h : isdigit ch = true) : isspace ch = false := by
  simp only [isdigit, Bool.and_eq_true, decide_eq_true_eq] at h
  simp only [isspace, Bool.or_eq_false_iff, beq_eq_false_iff_ne, Bool.and_eq_false_iff,
    decide_eq_false_iff_not]
  omega

theorem sumCollab_ok (obj : List Nat → Int) (big : Int) : PayloadOK (sumCollab obj big) where
  tf_nonempty := fun tf => (showNat_spec tf).1
  tf_nospace := fun tf ch h => isspace_of_isdigit ch ((showNat_spec tf).2.1 ch h)
  tf_inverse := fun _ tf => (showNat_spec tf).2.2
  leaf_nonempty := fun v => (showNat_spec v).1
  leaf_nospace := fun v ch h => isspace_of_isdigit ch ((showNat_spec v).2.1 ch h)
  leaf_inverse := fun v => (showNat_spec v).2.2

/-! ## Reading a node line -/

theorem dropWhile_isspace_token (p sfx : List Char) (hne : p ≠ [])
    (hp : ∀ ch, ch ∈ p → isspace ch = false) :
    (p ++ sfx).dropWhile isspace = p ++ sfx := by
  cases p with
  | nil => exact absurd rfl hne
  | cons a p =>
    have ha : isspace a = false := hp a (List.mem_cons_self _ _)
    simp [List.dropWhile_cons, ha]

theorem takeWhile_token (p sfx : List Char) (hp : ∀ ch, ch ∈ p → isspace ch = false)
    (hs : sfx = [] ∨ ∃ ch r, sfx = ch :: r ∧ isspace ch = true) :
    (p ++ sfx).takeWhile (fun ch => !(isspace ch)) = p := by
  induction p with
  | nil =>
    rcases hs with rfl | ⟨ch, r, rfl, hch⟩
    · rfl
    · simp [List.takeWhile_cons, hch]
  | cons a p ih =>
    have ha : isspace a = false := hp a (List.mem_cons_self _ _)
    have := ih (fun ch h => hp ch (List.mem_cons_of_mem _ h))
    simp [List.takeWhile_cons, ha, this]

/-- Reading back a node line: the flag digit, a tab, a white-space-free
payload, and then nothing or more white space. -/
theorem readInt_flag (d : Char) (hd : d = '0' ∨ d = '1') (p sfx : List Char) :
    readInt (d :: TAB :: (p ++ sfx)) =
      ((if d = '1' then 1 else 0), true, TAB :: (p ++ sfx)) := by
  rcases hd with rfl | rfl <;>
  simp [readInt, List.dropWhile_cons, List.takeWhile_cons, isspace, isdigit, TAB, digitsValue,
    INT_MIN, INT_MAX]

theorem readToken_payload (p sfx : List Char) (hne : p ≠ [])
    (hp : ∀ ch, ch ∈ p → isspace ch = false)
    (hs : sfx = [] ∨ ∃ ch r, sfx = ch :: r ∧ isspace ch = true) :
    readToken true (TAB :: (p ++ sfx)) = p := by
  have h1 : (TAB :: (p ++ sfx)).dropWhile isspace = p ++ sfx := by
    rw [List.dropWhile_cons, if_pos (by decide)]
    exact dropWhile_isspace_token p sfx hne hp
  simp only [readToken, if_true, h1]
  exact takeWhile_token p sfx hp hs

namespace Tree

variable {Y X L TF G S : Type}

theorem deserialize_leaf_line (c : Collab Y X L TF G S) (ok : PayloadOK c) (v : L)
    (sfx : List Char) (hs : sfx = [] ∨ ∃ ch r, sfx = ch :: r ∧ isspace ch = true)
    (dim_ : Int) (tf_ : TF) (leaf_ : Bool × Option L) (tr_ tl_ : Tree Y X L TF)
    (stock_ : ExampleSet Y X) :
    deserialize c (node dim_ tf_ leaf_ tr_ tl_ stock_) ('1' :: TAB :: (c.leafSerialize v ++ sfx)) =
      some (node dim_ tf_ (true, some v) tr_ tl_ stock_) := by
  simp only [deserialize, readInt_flag '1' (Or.inr rfl), if_true,
    readToken_payload _ sfx (ok.leaf_nonempty v) (ok.leaf_nospace v) hs, ok.leaf_inverse]

theorem deserialize_internal_line (c : Collab Y X L TF G S) (ok : PayloadOK c) (tf : TF)
    (sfx : List Char) (hs : sfx = [] ∨ ∃ ch r, sfx = ch :: r ∧ isspace ch = true)
    (dim_ : Int) (tf_ : TF) (leaf_ : Bool × Option L) (tr_ tl_ : Tree Y X L TF)
    (stock_ : ExampleSet Y X) :
    deserialize c (node dim_ tf_ leaf_ tr_ tl_ stock_) ('0' :: TAB :: (c.tfSerialize tf ++ sfx)) =
      some (node dim_ tf (false, leaf_.2) tr_ tl_ stock_) := by
  have h01 : ¬ ('0' : Char) = '1' := by decide
  simp only [deserialize, readInt_flag '0' (Or.inl rfl), h01, if_false,
    readToken_payload _ sfx (ok.tf_nonempty tf) (ok.tf_nospace tf) hs, ok.tf_inverse]
  simp

theorem isspace_NL_suffix : ([NL] : List Char) = [] ∨
    ∃ ch r, ([NL] : List Char) = ch :: r ∧ isspace ch = true :=
  Or.inr ⟨NL, [], rfl, by decide⟩

/-- A well-formed tree is written as the lines of its shape, after the prior
contents of the queue. -/
theorem recursive_serialize_of_shape (c : Collab Y X L TF G S) :
    ∀ (t : Tree Y X L TF) (s : Shape L TF), shape t = some s →
      ∀ dq, recursive_serialize c t dq = some (dq ++ Shape.lines c s) := by
  intro t
  induction t with
  | null => intro s h; simp [shape] at h
  | node dim_ tf_ leaf_ tr_ tl_ stock_ ihr ihl =>
    intro s h dq
    obtain ⟨flag, val⟩ := leaf_
    cases flag with
    | true =>
      cases val with
      | none => simp [shape] at h
      | some v =>
        simp only [shape, if_true, Option.some.injEq] at h
        subst h
        simp [recursive_serialize, serialize, Shape.lines]
    | false =>
      simp only [shape, Bool.false_eq_true, if_false] at h
      cases hr : shape tr_ with
      | none => simp [hr] at h
      | some r =>
        cases hl : shape tl_ with
        | none => simp [hr, hl] at h
        | some l =>
          simp only [hr, hl, Option.some.injEq] at h
          subst h
          simp [recursive_serialize, serialize, Shape.lines, ihr r hr, ihl l hl]

theorem lines_eq_rows (c : Collab Y X L TF G S) :
    ∀ s : Shape L TF, Shape.lines c s = Shape.rows c [NL] s := by
  intro s
  induction s with
  | leaf v => rfl
  | internal tf r l ihr ihl => simp [Shape.lines, Shape.rows, ihr, ihl]

/-- Reading the rows of a shape back, whatever follows them in the queue and
whatever the state of the receiving tree object; the rows may end in nothing
or in white space. -/
theorem recursive_deserializeAux_rows (c : Collab Y X L TF G S) (ok : PayloadOK c)
    (eol : List Char) (hs : eol = [] ∨ ∃ ch r, eol = ch :: r ∧ isspace ch = true) :
    ∀ (s : Shape L TF) (fuel : Nat) (rest : List (List Char)) (dim_ : Int) (tf_ : TF)
      (leaf_ : Bool × Option L) (tr_ tl_ : Tree Y X L TF) (stock_ : ExampleSet Y X),
      (Shape.rows c eol s ++ rest).length ≤ fuel →
      ∃ t, recursive_deserializeAux c fuel (node dim_ tf_ leaf_ tr_ tl_ stock_)
          (Shape.rows c eol s ++ rest) = some (t, rest) ∧ shape t = some s := by
  intro s
  induction s with
  | leaf v =>
    intro fuel rest dim_ tf_ leaf_ tr_ tl_ stock_ hf
    obtain ⟨fuel, rfl⟩ : ∃ k, fuel = k + 1 := ⟨fuel - 1, by simp [Shape.rows] at hf; omega⟩
    refine ⟨node dim_ tf_ (true, some v) tr_ tl_ stock_, ?_, by simp [shape]⟩
    simp only [Shape.rows, List.cons_append, List.nil_append, List.append_assoc,
      recursive_deserializeAux, deserialize_leaf_line c ok v eol hs]
    simp
  | internal tf r l ihr ihl =>
    intro fuel rest dim_ tf_ leaf_ tr_ tl_ stock_ hf
    obtain ⟨fuel, rfl⟩ : ∃ k, fuel = k + 1 := ⟨fuel - 1, by simp [Shape.rows] at hf; omega⟩
    have hlen : (Shape.rows c eol r ++ (Shape.rows c eol l ++ rest)).length ≤ fuel := by
      simp [Shape.rows] at hf ⊢; omega
    have hlen2 : (Shape.rows c eol l ++ rest).length ≤ fuel := by
      simp at hlen ⊢; omega
    obtain ⟨t1, h1, hs1⟩ := ihr fuel (Shape.rows c eol l ++ rest) dim_ tf (true, none) null
      null [] hlen
    obtain ⟨t2, h2, hs2⟩ := ihl fuel rest dim_ tf (true, none) null null [] hlen2
    refine ⟨node dim_ tf (false, leaf_.2) t1 t2 stock_, ?_, by simp [shape, hs1, hs2]⟩
    simp only [Shape.rows, List.cons_append, List.nil_append, List.append_assoc,
      recursive_deserializeAux, deserialize_internal_line c ok tf eol hs,
      new] at h1 h2 ⊢
    simp [h1, h2]

/-- Reading the lines of a shape back, whatever follows them in the queue and
whatever the state of the receiving tree object. -/
theorem recursive_deserializeAux_lines (c : Collab Y X L TF G S) (ok : PayloadOK c)
    (s : Shape L TF) (fuel : Nat) (rest : List (List Char)) (dim_ : Int) (tf_ : TF)
    (leaf_ : Bool × Option L) (tr_ tl_ : Tree Y X L TF) (stock_ : ExampleSet Y X)
    (hf : (Shape.lines c s ++ rest).length ≤ fuel) :
    ∃ t, recursive_deserializeAux c fuel (node dim_ tf_ leaf_ tr_ tl_ stock_)
        (Shape.lines c s ++ rest) = some (t, rest) ∧ shape t = some s := by
  rw [lines_eq_rows] at hf ⊢
  exact recursive_deserializeAux_rows c ok [NL] isspace_NL_suffix s fuel rest dim_ tf_ leaf_
    tr_ tl_ stock_ hf

/-- Prediction reads a well-formed tree through its shape. -/
theorem predict_of_shape (c : Collab Y X L TF G S) :
    ∀ (t : Tree Y X L TF) (s : Shape L TF), shape t = some s →
      ∀ x, predict c t x = some (Shape.predict c s x) := by
  intro t
  induction t with
  | null => intro s h; simp [shape] at h
  | node dim_ tf_ leaf_ tr_ tl_ stock_ ihr ihl =>
    intro s h x
    obtain ⟨flag, val⟩ := leaf_
    cases flag with
    | true =>
      cases val with
      | none => simp [shape] at h
      | some v =>
        simp only [shape, if_true, Option.some.injEq] at h
        subst h
        simp [predict, Shape.predict]
    | false =>
      simp only [shape, Bool.false_eq_true, if_false] at h
      cases hr : shape tr_ with
      | none => simp [hr] at h
      | some r =>
        cases hl : shape tl_ with
        | none => simp [hr, hl] at h
        | some l =>
          simp only [hr, hl, Option.some.injEq] at h
          subst h
          simp only [predict, Bool.false_eq_true, if_false, Shape.predict, ihr r hr, ihl l hl]
          split_ifs <;> rfl

/-- Every tree returned by `trainAux` is well formed. -/
theorem trainAux_shape_isSome [LinearOrder S] [Add S] [Mul S] [NatCast S]
    (c : Collab Y X L TF G S) (trp : TreeTrainingParameters S) :
    ∀ (fuel : Nat) (t : Tree Y X L TF) (data : ExampleSet Y X) (g : G) (t1 : Tree Y X L TF)
      (g1 : G), trainAux c trp fuel t data g = some (t1, g1) → (shape t1).isSome = true := by
  intro fuel
  induction fuel with
  | zero =>
    intro t data g t1 g1 h
    cases t <;> simp [trainAux] at h
  | succ fuel ih =>
    intro t data g t1 g1 h
    cases t with
    | null => simp [trainAux] at h
    | node dim_ tf_ leaf_ tr_ tl_ stock_ =>
      rw [trainAux_succ] at h
      split_ifs at h with hs hd
      · simp only [Option.some.injEq, Prod.mk.injEq] at h
        rw [← h.1]; simp [shape]
      · simp only [Option.some.injEq, Prod.mk.injEq] at h
        rw [← h.1]; simp [shape]
      · cases hr : trainAux c trp fuel (new dim_ (bestSearch c trp tf_ data g).2.1)
            (split c (bestSearch c trp tf_ data g).2.1 data).1
            (bestSearch c trp tf_ data g).2.2 with
        | none => simp [hr] at h
        | some r =>
          obtain ⟨tr1, g2⟩ := r
          simp only [hr] at h
          cases hl : trainAux c trp fuel (new dim_ (bestSearch c trp tf_ data g).2.1)
              (split c (bestSearch c trp tf_ data g).2.1 data).2 g2 with
          | none => simp [hl] at h
          | some l =>
            obtain ⟨tl1, g3⟩ := l
            simp only [hl, Option.some.injEq, Prod.mk.injEq] at h
            have h1 := ih _ _ _ _ _ hr
            have h2 := ih _ _ _ _ _ hl
            rw [Option.isSome_iff_exists] at h1 h2
            obtain ⟨s1, h1⟩ := h1
            obtain ⟨s2, h2⟩ := h2
            rw [← h.1]; simp [shape, h1, h2]

/-! ## C3: serialize, then deserialize -/

/-- C3: let `T` be a tree returned by `train` (on a fresh tree or on any other
tree object), and let the
payloads be non-empty white-space-free tokens that `deserialize` inverts. Then
`recursive_serialize` succeeds on `T`, and `recursive_deserialize`, run on any
tree object with a queue made of the lines of `T` followed by further lines
`rest`, returns a tree with the same leaf/internal shape and the same payload
at every node, and the queue it leaves is exactly `rest`; the returned tree
predicts as `T` does on every input. -/
theorem serialize_deserialize_roundtrip [LinearOrder S] [Add S] [Mul S] [NatCast S]
    (c : Collab Y X L TF G S) (ok : PayloadOK c) (trp : TreeTrainingParameters S)
    (t0 : Tree Y X L TF) (data : ExampleSet Y X) (g : G) (T : Tree Y X L TF) (g1 : G)
    (htrain : train c trp t0 data g = some (T, g1))
    (rest : List (List Char)) (dim0 : Int) (tf0 : TF) (leaf0 : Bool × Option L)
    (tr0 tl0 : Tree Y X L TF) (stock0 : ExampleSet Y X) :
    ∃ (lines : List (List Char)) (T2 : Tree Y X L TF) (s : Shape L TF),
      recursive_serialize c T [] = some lines ∧
      recursive_deserialize c (node dim0 tf0 leaf0 tr0 tl0 stock0) (lines ++ rest)
        = some (T2, rest) ∧
      shape T = some s ∧ shape T2 = some s ∧
      ∀ x, predict c T2 x = predict c T x := by
  have hs := trainAux_shape_isSome c trp _ _ _ _ _ _ htrain
  rw [Option.isSome_iff_exists] at hs
  obtain ⟨s, hs⟩ := hs
  obtain ⟨T2, h2, hs2⟩ := recursive_deserializeAux_lines c ok s (Shape.lines c s ++ rest).length
    rest dim0 tf0 leaf0 tr0 tl0 stock0 (le_refl _)
  refine ⟨Shape.lines c s, T2, s, ?_, h2, hs, hs2, ?_⟩
  · simpa using recursive_serialize_of_shape c T s hs []
  · intro x
    rw [predict_of_shape c T2 s hs2 x, predict_of_shape c T s hs x]

/-- Witness for C3: a tree with one split and two leaves, read back from its
three lines followed by one more line. -/
theorem serialize_deserialize_roundtrip_witness :
    train (sumCollab pureObj 1000) ⟨0, 1, 1, 500, 2, false⟩ (new 1 0)
      [(7, 1), (8, 5), (7, 2)] [3, 4] = some (exTree, []) ∧
    ∃ (lines : List (List Char)) (T2 : Tree Nat Nat Nat Nat) (s : Shape Nat Nat),
      recursive_serialize (sumCollab pureObj 1000) exTree [] = some lines ∧
      recursive_deserialize (sumCollab pureObj 1000) (node 5 9 (true, none) null null [])
        (lines ++ [['x']]) = some (T2, [['x']]) ∧
      shape exTree = some s ∧ shape T2 = some s ∧
      ∀ x, predict (sumCollab pureObj 1000) T2 x = predict (sumCollab pureObj 1000) exTree x :=
  ⟨by decide,
   serialize_deserialize_roundtrip (sumCollab pureObj 1000) (sumCollab_ok pureObj 1000)
    ⟨0, 1, 1, 500, 2, false⟩ (new 1 0) [(7, 1), (8, 5), (7, 2)] [3, 4] exTree [] (by decide)
    [['x']] 5 9 (true, none) null null []⟩

end Tree

/-! ## C6: the degenerate-split fallback -/

namespace Tree

variable {Y X L TF G S : Type}

/-- C6, as stated, fails. The scalars are integers here, `DBL_MAX` is 1000, and
the objective returns `DBL_MAX` on label sets with two values. One candidate is
sampled (threshold 0, which sends both examples to the right); its impurity
`2 * DBL_MAX` is not below `DBL_MAX`, so `e < mine` is false and `best_tf` stays
the default-constructed test (threshold 3), which separates the two examples:
every sampled candidate puts all examples on one side, and yet the node
becomes internal with two children. -/
theorem degenerate_fallback_counterexample :
    ¬ (bigObj 1000 (ExampleSet.Y_ [((7 : Nat), (1 : Nat)), (8, 5)]) ≤ 0 ∨ (2 : Int) ≤ 1) ∧
    candidates (thrCollabD (bigObj 1000) 1000 3) 0 1 [0] = [0] ∧
    (∀ t, t ∈ candidates (thrCollabD (bigObj 1000) 1000 3) 0 1 [0] →
      (split (thrCollabD (bigObj 1000) 1000 3) t [(7, 1), (8, 5)]).1.length = 0 ∨
      (split (thrCollabD (bigObj 1000) 1000 3) t [(7, 1), (8, 5)]).2.length = 0) ∧
    train (thrCollabD (bigObj 1000) 1000 3) ⟨0, 1, 1, 500, 1, false⟩ (new 1 0)
        [(7, 1), (8, 5)] [0] =
      some (node 1 3 (false, none) (node 1 3 (true, some [8]) null null [])
        (node 1 3 (true, some [7]) null null []) [], []) := by
  decide

/-- C6, amended: in a `train` call that passes the stopping rule, if the test
`best_tf` left by the sampling loop puts all examples on one side, the node
becomes a leaf built from all labels of `data`, its child pointers are left as
they were and no recursive call is made (a budget of one call suffices). This
is the case in particular when some sampled candidate has an impurity below
`DBL_MAX` and every sampled candidate puts all examples on one side. -/
theorem train_degenerate_leaf [LinearOrder S] [Add S] [Mul S] [NatCast S]
    (c : Collab Y X L TF G S) (trp : TreeTrainingParameters S)
    (dim_ : Int) (tf_ : TF) (leaf_ : Bool × Option L) (tr_ tl_ : Tree Y X L TF)
    (stock_ data : ExampleSet Y X) (g : G)
    (hstop : ¬ (c.objfunc data.Y_ ≤ trp.objfunc_th ∨ (data.length : Int) ≤ trp.nexamples_th)) :
    (((split c (bestSearch c trp tf_ data g).2.1 data).1.length = 0 ∨
        (split c (bestSearch c trp tf_ data g).2.1 data).2.length = 0) →
      trainAux c trp 1 (node dim_ tf_ leaf_ tr_ tl_ stock_) data g =
        some (node dim_ tf_ (true, some (c.leafFromLabels data.Y_)) tr_ tl_ stock_,
          sampleState c tf_ trp.nsamplings.toNat g) ∧
      train c trp (node dim_ tf_ leaf_ tr_ tl_ stock_) data g =
        some (node dim_ tf_ (true, some (c.leafFromLabels data.Y_)) tr_ tl_ stock_,
          sampleState c tf_ trp.nsamplings.toNat g)) ∧
    ((∃ t, t ∈ candidates c tf_ trp.nsamplings.toNat g ∧ impurity c t data < c.dblMax) →
      (∀ t, t ∈ candidates c tf_ trp.nsamplings.toNat g →
        (split c t data).1.length = 0 ∨ (split c t data).2.length = 0) →
      train c trp (node dim_ tf_ leaf_ tr_ tl_ stock_) data g =
        some (node dim_ tf_ (true, some (c.leafFromLabels data.Y_)) tr_ tl_ stock_,
          sampleState c tf_ trp.nsamplings.toNat g)) := by
  have hg : (bestSearch c trp tf_ data g).2.2 = sampleState c tf_ trp.nsamplings.toNat g :=
    (search_spec c tf_ data trp.nsamplings.toNat c.dblMax c.tfDefault g).1
  refine ⟨fun hd => ⟨?_, train_of_degenerate c trp dim_ tf_ leaf_ tr_ tl_ stock_ data g hstop hd⟩,
    ?_⟩
  · rw [trainAux_succ, if_neg hstop, if_pos hd, hg]
  rintro ⟨t, ht, hlt⟩ hall
  apply train_of_degenerate c trp dim_ tf_ leaf_ tr_ tl_ stock_ data g hstop
  rcases (search_spec c tf_ data trp.nsamplings.toNat c.dblMax c.tfDefault g).2 with
    ⟨h1, _, _⟩ | ⟨pre, post, h1, _, _, _, _⟩
  · exact absurd hlt (h1 t ht)
  · apply hall
    unfold bestSearch
    rw [h1]
    simp

/-- Witness for C6: two candidates with threshold 0, both sending the two
examples to the right. -/
theorem train_degenerate_leaf_witness :
    train (thrCollab pureObj 1000) ⟨0, 1, 1, 500, 2, false⟩ (new 1 0) [(7, 1), (8, 5)] [0, 0] =
      some (node 1 0 (true, some [7, 8]) null null [], []) :=
  (train_degenerate_leaf (thrCollab pureObj 1000) ⟨0, 1, 1, 500, 2, false⟩ 1 0 (true, none)
    null null [] [(7, 1), (8, 5)] [0, 0] (by decide)).2 ⟨0, by decide, by decide⟩ (by decide)

end Tree

/-! ## C7: prediction, C8: the lines of a tree -/

namespace Tree

variable {Y X L TF G S : Type}

/-- `train` on a tree object always returns, and what it returns is well
formed. -/
theorem train_total [LinearOrder S] [Add S] [Mul S] [NatCast S]
    (c : Collab Y X L TF G S) (trp : TreeTrainingParameters S)
    (dim_ : Int) (tf_ : TF) (leaf_ : Bool × Option L) (tr_ tl_ : Tree Y X L TF)
    (stock_ data : ExampleSet Y X) (g : G) :
    ∃ T g1 s, train c trp (node dim_ tf_ leaf_ tr_ tl_ stock_) data g = some (T, g1) ∧
      shape T = some s := by
  have h := trainAux_isSome c trp (data.length + 1) dim_ tf_ leaf_ tr_ tl_ stock_ data g
    (by omega)
  rw [Option.isSome_iff_exists] at h
  obtain ⟨⟨T, g1⟩, h⟩ := h
  have hs := trainAux_shape_isSome c trp _ _ _ _ _ _ h
  rw [Option.isSome_iff_exists] at hs
  obtain ⟨s, hs⟩ := hs
  exact ⟨T, g1, s, h, hs⟩

/-- C7: `train`, on a fresh tree (`new dim tf`, which is such a node) or on
any other tree object, returns a tree `T` on which `predict` is defined for
every input: it is the value of the leaf reached from the root by
going right where the test of an internal node is true and left where it is
false. At a node flagged as leaf `predict` returns the held value, at a node
not flagged as leaf it is `predict` of the right child when the test is true
and of the left child when it is false. -/
theorem predict_trained [LinearOrder S] [Add S] [Mul S] [NatCast S]
    (c : Collab Y X L TF G S) (trp : TreeTrainingParameters S)
    (dim : Int) (tf : TF) (leaf : Bool × Option L) (tr tl : Tree Y X L TF)
    (stock data : ExampleSet Y X) (g : G) :
    (∃ T g1 s, train c trp (node dim tf leaf tr tl stock) data g = some (T, g1) ∧
      shape T = some s ∧ ∀ x, predict c T x = some (Shape.predict c s x)) ∧
    (∀ (v : L) (r l : Shape L TF) (t : TF) (x : X),
      Shape.predict c (Shape.leaf v : Shape L TF) x = v ∧
      Shape.predict c (Shape.internal t r l) x =
        if c.tfEval t x then Shape.predict c r x else Shape.predict c l x) ∧
    (∀ (dim_ : Int) (tf_ : TF) (val : Option L) (tr_ tl_ : Tree Y X L TF)
        (stock_ : ExampleSet Y X) (x : X),
      predict c (node dim_ tf_ (true, val) tr_ tl_ stock_) x = val ∧
      predict c (node dim_ tf_ (false, val) tr_ tl_ stock_) x =
        if c.tfEval tf_ x then predict c tr_ x else predict c tl_ x) := by
  refine ⟨?_, ?_, ?_⟩
  · obtain ⟨T, g1, s, h, hs⟩ := train_total c trp dim tf leaf tr tl stock data g
    exact ⟨T, g1, s, h, hs, predict_of_shape c T s hs⟩
  · intro v r l t x
    exact ⟨rfl, rfl⟩
  · intro dim_ tf_ val tr_ tl_ stock_ x
    exact ⟨by simp [predict], by simp [predict]⟩

theorem lines_length (c : Collab Y X L TF G S) :
    ∀ s : Shape L TF, (Shape.lines c s).length = Shape.size s := by
  intro s
  induction s with
  | leaf v => rfl
  | internal tf r l ihr ihl => simp [Shape.lines, Shape.size, ihr, ihl]; omega

/-- C8: `train`, on a fresh tree or on any other tree object, returns a tree
`T` for which
`recursive_serialize` appends to the queue, after its prior contents, the line
of the node, then all lines of the right subtree, then all lines of the left
subtree, one line per node. The line of a leaf is the flag `1`, a tab, the
payload of the leaf value and a newline; the line of an internal node is the
flag `0`, a tab, the payload of the test and a newline. -/
theorem recursive_serialize_trained [LinearOrder S] [Add S] [Mul S] [NatCast S]
    (c : Collab Y X L TF G S) (trp : TreeTrainingParameters S)
    (dim : Int) (tf : TF) (leaf : Bool × Option L) (tr tl : Tree Y X L TF)
    (stock data : ExampleSet Y X) (g : G) :
    (∃ T g1 s, train c trp (node dim tf leaf tr tl stock) data g = some (T, g1) ∧
      shape T = some s ∧
      (∀ dq, recursive_serialize c T dq = some (dq ++ Shape.lines c s)) ∧
      (Shape.lines c s).length = Shape.size s) ∧
    (∀ (v : L) (t : TF) (r l : Shape L TF),
      Shape.lines c (Shape.leaf v : Shape L TF) = [['1', TAB] ++ c.leafSerialize v ++ [NL]] ∧
      Shape.lines c (Shape.internal t r l) =
        [['0', TAB] ++ c.tfSerialize t ++ [NL]] ++ Shape.lines c r ++ Shape.lines c l) ∧
    (∀ (dim_ : Int) (tf_ : TF) (v : L) (val : Option L) (tr_ tl_ : Tree Y X L TF)
        (stock_ : ExampleSet Y X) (dq : List (List Char)),
      serialize c (node dim_ tf_ (true, some v) tr_ tl_ stock_) =
        some (['1', TAB] ++ c.leafSerialize v ++ [NL]) ∧
      serialize c (node dim_ tf_ (false, val) tr_ tl_ stock_) =
        some (['0', TAB] ++ c.tfSerialize tf_ ++ [NL]) ∧
      recursive_serialize c (node dim_ tf_ (true, some v) tr_ tl_ stock_) dq =
        some (dq ++ [['1', TAB] ++ c.leafSerialize v ++ [NL]]) ∧
      recursive_serialize c (node dim_ tf_ (false, val) tr_ tl_ stock_) dq =
        (recursive_serialize c tr_ (dq ++ [['0', TAB] ++ c.tfSerialize tf_ ++ [NL]])).bind
          (fun dq1 => recursive_serialize c tl_ dq1)) := by
  refine ⟨?_, ?_, ?_⟩
  · obtain ⟨T, g1, s, h, hs⟩ := train_total c trp dim tf leaf tr tl stock data g
    exact ⟨T, g1, s, h, hs, recursive_serialize_of_shape c T s hs, lines_length c s⟩
  · intro v t r l
    exact ⟨rfl, by simp [Shape.lines]⟩
  · intro dim_ tf_ v val tr_ tl_ stock_ dq
    refine ⟨by simp [serialize], by simp [serialize], by simp [recursive_serialize, serialize],
      ?_⟩
    simp only [recursive_serialize, serialize, Bool.false_eq_true, if_false, Bool.not_false,
      if_true]
    cases recursive_serialize c tr_ (dq ++ [['0', TAB] ++ c.tfSerialize tf_ ++ [NL]]) <;> rfl

end Tree

/-! ## C5: truncated input -/

namespace Tree

variable {Y X L TF G S : Type}

theorem deserialize_flag_leaf (c : Collab Y X L TF G S) (p : List Char)
    (dim_ : Int) (tf_ : TF) (leaf_ : Bool × Option L) (tr_ tl_ : Tree Y X L TF)
    (stock_ : ExampleSet Y X) :
    deserialize c (node dim_ tf_ leaf_ tr_ tl_ stock_) ('1' :: TAB :: p) =
      some (node dim_ tf_ (true, some (c.leafDeserialize (readToken true (TAB :: p))))
        tr_ tl_ stock_) := by
  have h := readInt_flag '1' (Or.inr rfl) p []
  rw [List.append_nil] at h
  simp only [deserialize, h, if_true]

theorem deserialize_flag_internal (c : Collab Y X L TF G S) (p : List Char)
    (dim_ : Int) (tf_ : TF) (leaf_ : Bool × Option L) (tr_ tl_ : Tree Y X L TF)
    (stock_ : ExampleSet Y X) :
    deserialize c (node dim_ tf_ leaf_ tr_ tl_ stock_) ('0' :: TAB :: p) =
      some (node dim_ (c.tfDeserialize tf_ (readToken true (TAB :: p))) (false, leaf_.2)
        tr_ tl_ stock_) := by
  have h := readInt_flag '0' (Or.inl rfl) p []
  rw [List.append_nil] at h
  have h01 : ¬ ('0' : Char) = '1' := by decide
  simp only [deserialize, h, h01, if_false]
  simp

/-- Whatever the payloads are, reading the lines of a shape consumes exactly
these lines. -/
theorem recursive_deserializeAux_consumes (c : Collab Y X L TF G S) :
    ∀ (s : Shape L TF) (fuel : Nat) (rest : List (List Char)) (dim_ : Int) (tf_ : TF)
      (leaf_ : Bool × Option L) (tr_ tl_ : Tree Y X L TF) (stock_ : ExampleSet Y X),
      (Shape.lines c s ++ rest).length ≤ fuel →
      ∃ t, recursive_deserializeAux c fuel (node dim_ tf_ leaf_ tr_ tl_ stock_)
          (Shape.lines c s ++ rest) = some (t, rest) := by
  intro s
  induction s with
  | leaf v =>
    intro fuel rest dim_ tf_ leaf_ tr_ tl_ stock_ hf
    obtain ⟨fuel, rfl⟩ : ∃ k, fuel = k + 1 := ⟨fuel - 1, by simp [Shape.lines] at hf; omega⟩
    refine ⟨node dim_ tf_
      (true, some (c.leafDeserialize (readToken true (TAB :: (c.leafSerialize v ++ [NL])))))
      tr_ tl_ stock_, ?_⟩
    simp only [Shape.lines, List.cons_append, List.nil_append, List.append_assoc,
      recursive_deserializeAux, deserialize_flag_leaf]
    simp
  | internal tf r l ihr ihl =>
    intro fuel rest dim_ tf_ leaf_ tr_ tl_ stock_ hf
    obtain ⟨fuel, rfl⟩ : ∃ k, fuel = k + 1 := ⟨fuel - 1, by simp [Shape.lines] at hf; omega⟩
    have hlen : (Shape.lines c r ++ (Shape.lines c l ++ rest)).length ≤ fuel := by
      simp [Shape.lines] at hf ⊢; omega
    have hlen2 : (Shape.lines c l ++ rest).length ≤ fuel := by
      simp at hlen ⊢; omega
    obtain ⟨t1, h1⟩ := ihr fuel (Shape.lines c l ++ rest) dim_
      (c.tfDeserialize tf_ (readToken true (TAB :: (c.tfSerialize tf ++ [NL]))))
      (true, none) null null [] hlen
    obtain ⟨t2, h2⟩ := ihl fuel rest dim_
      (c.tfDeserialize tf_ (readToken true (TAB :: (c.tfSerialize tf ++ [NL]))))
      (true, none) null null [] hlen2
    refine ⟨node dim_ (c.tfDeserialize tf_ (readToken true (TAB :: (c.tfSerialize tf ++ [NL]))))
      (false, leaf_.2) t1 t2 stock_, ?_⟩
    simp only [Shape.lines, List.cons_append, List.nil_append, List.append_assoc,
      recursive_deserializeAux, deserialize_flag_internal, new] at h1 h2 ⊢
    simp [h1, h2]

/-- Reading a proper prefix of the lines of a shape fails. -/
theorem recursive_deserializeAux_prefix (c : Collab Y X L TF G S) :
    ∀ (s : Shape L TF) (pre : List (List Char)), pre <+: Shape.lines c s →
      pre ≠ Shape.lines c s →
      ∀ (fuel : Nat) (dim_ : Int) (tf_ : TF) (leaf_ : Bool × Option L)
        (tr_ tl_ : Tree Y X L TF) (stock_ : ExampleSet Y X), pre.length ≤ fuel →
        recursive_deserializeAux c fuel (node dim_ tf_ leaf_ tr_ tl_ stock_) pre = none := by
  intro s
  induction s with
  | leaf v =>
    intro pre hpre hne fuel dim_ tf_ leaf_ tr_ tl_ stock_ _
    cases pre with
    | nil => cases fuel <;> rfl
    | cons a pre =>
      exfalso
      apply hne
      simp only [Shape.lines] at hpre ⊢
      have hl := hpre.length_le
      simp only [List.length_cons, List.length_nil] at hl
      have : pre = [] := List.length_eq_zero.mp (by omega)
      subst this
      exact List.IsPrefix.eq_of_length hpre (by simp)
  | internal tf r l ihr ihl =>
    intro pre hpre hne fuel dim_ tf_ leaf_ tr_ tl_ stock_ hf
    cases pre with
    | nil => cases fuel <;> rfl
    | cons a pre =>
      obtain ⟨fuel, rfl⟩ : ∃ k, fuel = k + 1 := ⟨fuel - 1, by simp at hf; omega⟩
      simp only [Shape.lines, List.cons_append, List.nil_append, List.append_assoc] at hpre hne
      rw [List.cons_prefix_cons] at hpre
      obtain ⟨rfl, hpre⟩ := hpre
      have hne2 : pre ≠ Shape.lines c r ++ Shape.lines c l := fun h => hne (by rw [h])
      have hf2 : pre.length ≤ fuel := by simp at hf; omega
      simp only [recursive_deserializeAux, deserialize_flag_internal, new]
      rcases List.prefix_or_prefix_of_prefix hpre (List.prefix_append _ _) with h | h
      · by_cases he : pre = Shape.lines c r
        · subst he
          obtain ⟨t1, h1⟩ := recursive_deserializeAux_consumes c r fuel [] dim_
            (c.tfDeserialize tf_ (readToken true (TAB :: (c.tfSerialize tf ++ [NL]))))
            (true, none) null null [] (by simpa using hf2)
          rw [List.append_nil] at h1
          simp only [Bool.not_false, if_true, h1]
          cases fuel <;> rfl
        · have := ihr pre h he fuel dim_
            (c.tfDeserialize tf_ (readToken true (TAB :: (c.tfSerialize tf ++ [NL]))))
            (true, none) null null [] hf2
          simp [this]
      · obtain ⟨pre2, rfl⟩ := h
        have hp2 : pre2 <+: Shape.lines c l := (List.prefix_append_right_inj _).mp hpre
        have hn2 : pre2 ≠ Shape.lines c l := fun h => hne2 (by rw [h])
        obtain ⟨t1, h1⟩ := recursive_deserializeAux_consumes c r fuel pre2 dim_
          (c.tfDeserialize tf_ (readToken true (TAB :: (c.tfSerialize tf ++ [NL]))))
          (true, none) null null [] hf2
        have h2 := ihl pre2 hp2 hn2 fuel dim_
          (c.tfDeserialize tf_ (readToken true (TAB :: (c.tfSerialize tf ++ [NL]))))
          (true, none) null null [] (by simp at hf2; omega)
        simp [h1, h2]

/-- C5: `recursive_deserialize` fails whenever a node must be read from an empty
queue; and for every tree `T` returned by `train`, it fails on every proper
prefix of the lines that `recursive_serialize` writes for `T` (whatever the
payloads are), so no truncated tree is returned. -/
theorem recursive_deserialize_truncated [LinearOrder S] [Add S] [Mul S] [NatCast S]
    (c : Collab Y X L TF G S) (trp : TreeTrainingParameters S)
    (t0 : Tree Y X L TF) (data : ExampleSet Y X) (g : G) (T : Tree Y X L TF) (g1 : G)
    (htrain : train c trp t0 data g = some (T, g1)) :
    (∀ (fuel : Nat) (t : Tree Y X L TF), recursive_deserializeAux c fuel t [] = none) ∧
    ∃ lines, recursive_serialize c T [] = some lines ∧
      ∀ pre, pre <+: lines → pre ≠ lines →
        ∀ (dim0 : Int) (tf0 : TF) (leaf0 : Bool × Option L) (tr0 tl0 : Tree Y X L TF)
          (stock0 : ExampleSet Y X),
          recursive_deserialize c (node dim0 tf0 leaf0 tr0 tl0 stock0) pre = none := by
  refine ⟨?_, ?_⟩
  · intro fuel t
    cases t <;> cases fuel <;> rfl
  · have hs := trainAux_shape_isSome c trp _ _ _ _ _ _ htrain
    rw [Option.isSome_iff_exists] at hs
    obtain ⟨s, hs⟩ := hs
    refine ⟨Shape.lines c s, by simpa using recursive_serialize_of_shape c T s hs [], ?_⟩
    intro pre hpre hne dim0 tf0 leaf0 tr0 tl0 stock0
    exact recursive_deserializeAux_prefix c s pre hpre hne _ _ _ _ _ _ _ (le_refl _)

/-- Witness for C5: the example tree has three lines; reading only the first
two fails. -/
theorem recursive_deserialize_truncated_witness :
    recursive_deserialize (sumCollab pureObj 1000) (node 5 9 (true, none) null null [])
      [['0', TAB, '3', NL], ['1', TAB, '8', NL]] = none ∧
    ∃ lines, recursive_serialize (sumCollab pureObj 1000) exTree [] = some lines ∧
      ∀ pre, pre <+: lines → pre ≠ lines →
        ∀ (dim0 : Int) (tf0 : Nat) (leaf0 : Bool × Option Nat) (tr0 tl0 : Tree Nat Nat Nat Nat)
          (stock0 : ExampleSet Nat Nat),
          recursive_deserialize (sumCollab pureObj 1000) (node dim0 tf0 leaf0 tr0 tl0 stock0) pre
            = none :=
  ⟨by decide,
   (recursive_deserialize_truncated (sumCollab pureObj 1000) ⟨0, 1, 1, 500, 2, false⟩ (new 1 0)
    [(7, 1), (8, 5), (7, 2)] [3, 4] exTree [] (by decide)).2⟩

end Tree

/-! ## C4: the index blocks of Forest.train -/

namespace Forest

variable {Y X L TF G S : Type}

theorem takeBlock_eq : ∀ (m : Nat) (it : List Nat), takeBlock m it = (it.take m, it.drop m) := by
  intro m
  induction m with
  | zero => intro it; rfl
  | succ m ih =>
    intro it
    cases it with
    | nil => rfl
    | cons i it => simp [takeBlock, ih]

theorem subidxsLoop_length (m : Nat) : ∀ (k : Nat) (it : List Nat),
    (subidxsLoop m k it).length = k := by
  intro k
  induction k with
  | zero => intro it; rfl
  | succ k ih => intro it; simp [subidxsLoop, ih]

theorem subidxsLoop_get (m : Nat) : ∀ (k : Nat) (it : List Nat) (i : Nat), i < k →
    (subidxsLoop m k it).get? i = some ((it.drop (i * m)).take m) := by
  intro k
  induction k with
  | zero => intro it i h; omega
  | succ k ih =>
    intro it i h
    cases i with
    | zero => simp [subidxsLoop, takeBlock_eq]
    | succ i =>
      simp only [subidxsLoop, List.get?_cons_succ, takeBlock_eq]
      rw [ih _ i (by omega), List.drop_drop]
      congr 3
      ring

theorem subidxsLoop_flatten (m : Nat) : ∀ (k : Nat) (it : List Nat),
    (subidxsLoop m k it).flatten = it.take (k * m) := by
  intro k
  induction k with
  | zero => intro it; simp [subidxsLoop]
  | succ k ih =>
    intro it
    simp only [subidxsLoop, List.flatten_cons, takeBlock_eq, ih]
    rw [show (k + 1) * m = m + k * m by ring, List.take_add]

/-- C4: for `n` examples and `ntrees = K` (any `K ≥ 1`; the statement also
holds for `K = 0`, where there is no block), and a shuffle that returns a
permutation `p` of `0..n-1`, the index blocks built by `Forest::train` are `K`
consecutive slices of `p`, block `i` being the entries `i*m .. (i+1)*m - 1` with
`m = n / K`; each has exactly `m` entries, the blocks are pairwise disjoint,
their sizes add up to `K * m`, and the last `n mod K` entries of `p` are in no
block. -/
theorem subidxs_set_partition (c : Collab Y X L TF G S) (data : ExampleSet Y X) (g : G)
    (K : Nat)
    (hperm : (c.random_shuffle (List.range data.length) g).1.Perm (List.range data.length)) :
    (subidxs_set (c.random_shuffle (List.range data.length) g).1 (K : Int)).length = K ∧
    (∀ i, i < K →
      (subidxs_set (c.random_shuffle (List.range data.length) g).1 (K : Int)).get? i =
        some (((c.random_shuffle (List.range data.length) g).1.drop
          (i * (data.length / K))).take (data.length / K))) ∧
    (∀ b, b ∈ subidxs_set (c.random_shuffle (List.range data.length) g).1 (K : Int) →
      b.length = data.length / K) ∧
    (subidxs_set (c.random_shuffle (List.range data.length) g).1 (K : Int)).Pairwise
      List.Disjoint ∧
    ((subidxs_set (c.random_shuffle (List.range data.length) g).1 (K : Int)).map
      List.length).sum = K * (data.length / K) ∧
    (subidxs_set (c.random_shuffle (List.range data.length) g).1 (K : Int)).flatten ++
      (c.random_shuffle (List.range data.length) g).1.drop (K * (data.length / K)) =
      (c.random_shuffle (List.range data.length) g).1 ∧
    ((c.random_shuffle (List.range data.length) g).1.drop (K * (data.length / K))).length =
      data.length % K ∧
    (∀ x, x ∈ (c.random_shuffle (List.range data.length) g).1.drop (K * (data.length / K)) →
      ∀ b, b ∈ subidxs_set (c.random_shuffle (List.range data.length) g).1 (K : Int) →
        x ∉ b) := by
  generalize hp : (c.random_shuffle (List.range data.length) g).1 = p at hperm ⊢
  generalize hn : data.length = n at hperm ⊢
  have hlen : p.length = n := by rw [hperm.length_eq, List.length_range]
  have hnodup : p.Nodup := hperm.nodup_iff.mpr (List.nodup_range n)
  have hB : subidxs_set p (K : Int) = subidxsLoop (n / K) K p := by
    simp [subidxs_set, hlen]
  have hmul : K * (n / K) ≤ n := Nat.mul_div_le n K
  have hflat : (subidxs_set p (K : Int)).flatten = p.take (K * (n / K)) := by
    rw [hB, subidxsLoop_flatten]
  have hget : ∀ i, i < K →
      (subidxs_set p (K : Int)).get? i = some ((p.drop (i * (n / K))).take (n / K)) := by
    intro i hi
    rw [hB]; exact subidxsLoop_get _ K p i hi
  have hBlen : (subidxs_set p (K : Int)).length = K := by
    rw [hB]; exact subidxsLoop_length _ K p
  have hblock : ∀ b, b ∈ subidxs_set p (K : Int) → b.length = n / K := by
    intro b hb
    obtain ⟨i, hi⟩ := List.mem_iff_get?.mp hb
    have hiK : i < K := by
      have := List.get?_eq_some.mp hi
      obtain ⟨h, _⟩ := this
      omega
    rw [hget i hiK] at hi
    simp only [Option.some.injEq] at hi
    rw [← hi, List.length_take, List.length_drop, hlen]
    have : (i + 1) * (n / K) ≤ K * (n / K) := Nat.mul_le_mul_right _ (by omega)
    have e : (i + 1) * (n / K) = i * (n / K) + n / K := by ring
    omega
  have hnd : (subidxs_set p (K : Int)).flatten.Nodup := by
    rw [hflat]; exact hnodup.sublist (List.take_sublist _ _)
  refine ⟨hBlen, hget, hblock, (List.nodup_flatten.mp hnd).2, ?_, ?_, ?_, ?_⟩
  · rw [← List.length_flatten, hflat, List.length_take, hlen]; omega
  · rw [hflat]; exact List.take_append_drop _ _
  · rw [List.length_drop, hlen]
    have := Nat.div_add_mod n K
    omega
  · intro x hx b hb hxb
    have hxt : x ∈ p.take (K * (n / K)) := by
      rw [← hflat]; exact List.mem_flatten.mpr ⟨b, hb, hxb⟩
    exact List.disjoint_take_drop hnodup (le_refl _) hxt hx

/-- Witness for C4: seven examples and three trees; the shuffle of the example
collaborator reverses the index vector. -/
theorem subidxs_set_partition_witness :
    subidxs_set ((thrCollab pureObj 0).random_shuffle (List.range 7) []).1 3
      = [[6, 5], [4, 3], [2, 1]] ∧
    (subidxs_set ((thrCollab pureObj 0).random_shuffle (List.range 7) []).1 3).length = 3 ∧
    (∀ x, x ∈ ((thrCollab pureObj 0).random_shuffle (List.range 7) []).1.drop (3 * (7 / 3)) →
      ∀ b, b ∈ subidxs_set ((thrCollab pureObj 0).random_shuffle (List.range 7) []).1 3 →
        x ∉ b) :=
  ⟨by decide,
   (subidxs_set_partition (thrCollab pureObj 0)
      [(0, 0), (0, 0), (0, 0), (0, 0), (0, 0), (0, 0), (0, 0)] [] 3
      (List.reverse_perm _)).1,
   (subidxs_set_partition (thrCollab pureObj 0)
      [(0, 0), (0, 0), (0, 0), (0, 0), (0, 0), (0, 0), (0, 0)] [] 3
      (List.reverse_perm _)).2.2.2.2.2.2.2⟩

/-! ## C10: Forest.train -/

theorem subset_spec (data : ExampleSet Y X) : ∀ (idxs : List Nat) (dst : ExampleSet Y X),
    (∀ i, i ∈ idxs → i < data.length) →
    ∃ part, ExampleSet.subset data idxs dst = some (dst ++ part) ∧
      part.map some = idxs.map data.get? := by
  intro idxs
  induction idxs with
  | nil => intro dst _; exact ⟨[], by simp [ExampleSet.subset], rfl⟩
  | cons i idxs ih =>
    intro dst h
    have hi : i < data.length := h i (List.mem_cons_self _ _)
    obtain ⟨part, h1, h2⟩ := ih (dst ++ [data.get ⟨i, hi⟩])
      (fun j hj => h j (List.mem_cons_of_mem _ hj))
    refine ⟨data.get ⟨i, hi⟩ :: part, ?_, ?_⟩
    · simp only [ExampleSet.subset, ExampleSet.push_to, List.get?_eq_get hi, h1]
      simp
    · simp only [List.map_cons, h2, List.get?_eq_get hi]

theorem mem_subidxs_set (p : List Nat) (k : Int) (b : List Nat) (i : Nat)
    (hb : b ∈ subidxs_set p k) (hi : i ∈ b) : i ∈ p := by
  have h : i ∈ (subidxs_set p k).flatten := List.mem_flatten.mpr ⟨b, hb, hi⟩
  rw [subidxs_set, subidxsLoop_flatten] at h
  exact List.mem_of_mem_take h

/-- The training loop over `k` fresh trees and `k` index blocks within range:
it returns `k` trees; tree `i` is the result of `Tree.train` on a fresh tree
over the subset selected by block `i`, started in the random state left by
tree `i - 1`. -/
theorem trainLoop_spec [LinearOrder S] [Add S] [Mul S] [NatCast S]
    (c : Collab Y X L TF G S) (trp : TreeTrainingParameters S) (data : ExampleSet Y X)
    (dim : Int) (tf : TF) :
    ∀ (k : Nat) (blocks : List (List Nat)) (g : G), blocks.length = k →
      (∀ b, b ∈ blocks → ∀ i, i ∈ b → i < data.length) →
      ∃ ts gs g1, trainLoop c trp data (List.replicate k (Tree.new dim tf)) blocks g
          = some (ts, g1) ∧
        ts.length = k ∧ gs.length = k ∧ (g :: gs).getLast? = some g1 ∧
        ∀ i, i < k → ∃ b part t gi gj,
          blocks.get? i = some b ∧
          ExampleSet.subset data b [] = some part ∧ part.map some = b.map data.get? ∧
          (g :: gs).get? i = some gi ∧ gs.get? i = some gj ∧ ts.get? i = some t ∧
          Tree.train c trp (Tree.new dim tf) part gi = some (t, gj) := by
  intro k
  induction k with
  | zero =>
    intro blocks g _ _
    exact ⟨[], [], g, by simp [trainLoop], rfl, rfl, rfl, fun i hi => by omega⟩
  | succ k ih =>
    intro blocks g hlen hrange
    cases blocks with
    | nil => simp at hlen
    | cons b bs =>
      obtain ⟨part, hp1, hp2⟩ := subset_spec data b []
        (hrange b (List.mem_cons_self _ _))
      rw [List.nil_append] at hp1
      obtain ⟨t, g2, s, ht, _⟩ := Tree.train_total c trp dim tf (true, none) Tree.null
        Tree.null [] part g
      obtain ⟨ts, gs, g1, h1, h2, h3, h4, h5⟩ := ih bs g2 (by simpa using hlen)
        (fun b1 hb1 => hrange b1 (List.mem_cons_of_mem _ hb1))
      refine ⟨t :: ts, g2 :: gs, g1, ?_, by simp [h2], by simp [h3], ?_, ?_⟩
      · simp only [List.replicate_succ, trainLoop, hp1]
        have ht2 : Tree.train c trp (Tree.new dim tf) part g = some (t, g2) := ht
        simp only [ht2, h1]
      · rw [List.getLast?_cons_cons]; exact h4
      · intro i hi
        cases i with
        | zero => exact ⟨b, part, t, g, g2, rfl, hp1, hp2, rfl, rfl, rfl, ht⟩
        | succ i =>
          obtain ⟨b1, part1, t1, gi, gj, e1, e2, e3, e4, e5, e6, e7⟩ := h5 i (by omega)
          exact ⟨b1, part1, t1, gi, gj, by simpa using e1, e2, e3, by simpa using e4,
            by simpa using e5, by simpa using e6, e7⟩

/-- C10: whatever trees the forest held before, `Forest::train` with
`ntrees = k` returns a forest that holds exactly `k` trees (none when `k` is not
positive), built without reading the previous trees; for every `i < k`, tree
`i` is the result of `Tree.train`, with the embedded tree parameters, on a
fresh tree with the dimension and prototype test of the forest, over the
subset of the examples selected by index block `i`. The trees are trained in
block order, each from the random state left by the previous one. -/
theorem train_repopulates [LinearOrder S] [Add S] [Mul S] [NatCast S]
    (c : Collab Y X L TF G S) (trp : ForestTrainingParameters S) (F : Forest Y X L TF)
    (data : ExampleSet Y X) (g : G)
    (hperm : (c.random_shuffle (List.range data.length) g).1.Perm (List.range data.length)) :
    ∃ F1 g1, train c trp F data g = some (F1, g1) ∧
      F1.dim_ = F.dim_ ∧ F1.tf_ = F.tf_ ∧
      F1.trees_.length = trp.ntrees.toNat ∧
      (0 ≤ trp.ntrees → (F1.trees_.length : Int) = trp.ntrees) ∧
      train c trp ⟨F.dim_, F.tf_, []⟩ data g = some (F1, g1) ∧
      ∃ gs, gs.length = trp.ntrees.toNat ∧
        ((c.random_shuffle (List.range data.length) g).2 :: gs).getLast? = some g1 ∧
        ∀ i, i < trp.ntrees.toNat → ∃ b part t gi gj,
          (subidxs_set (c.random_shuffle (List.range data.length) g).1 trp.ntrees).get? i
            = some b ∧
          ExampleSet.subset data b [] = some part ∧ part.map some = b.map data.get? ∧
          ((c.random_shuffle (List.range data.length) g).2 :: gs).get? i = some gi ∧
          gs.get? i = some gj ∧ F1.trees_.get? i = some t ∧
          Tree.train c trp.tree_trp (Tree.new F.dim_ F.tf_) part gi = some (t, gj) := by
  have hrange : ∀ b, b ∈ subidxs_set (c.random_shuffle (List.range data.length) g).1 trp.ntrees →
      ∀ i, i ∈ b → i < data.length := by
    intro b hb i hi
    have := hperm.mem_iff.mp (mem_subidxs_set _ _ b i hb hi)
    simpa using this
  have hlen : (subidxs_set (c.random_shuffle (List.range data.length) g).1 trp.ntrees).length
      = trp.ntrees.toNat := subidxsLoop_length _ _ _
  obtain ⟨ts, gs, g1, h1, h2, h3, h4, h5⟩ := trainLoop_spec c trp.tree_trp data F.dim_ F.tf_
    trp.ntrees.toNat _ (c.random_shuffle (List.range data.length) g).2 hlen hrange
  refine ⟨⟨F.dim_, F.tf_, ts⟩, g1, ?_, rfl, rfl, h2, ?_, ?_, gs, h3, h4, h5⟩
  · simp only [train, h1]
  · intro h0
    simp only [h2]
    exact Int.toNat_of_nonneg h0
  · simp only [train, h1]

/-- Witness for C10: six examples, three trees, a forest that held one tree
before. -/
theorem train_repopulates_witness :
    ∃ F1 g1, train (thrCollab pureObj 1000) ⟨3, ⟨0, 1, 1, 500, 2, false⟩⟩
        ⟨1, 0, [Tree.new 1 0]⟩ [(7, 1), (8, 5), (7, 2), (8, 6), (7, 3), (8, 7)] [4, 4]
        = some (F1, g1) ∧ F1.trees_.length = 3 :=
  (train_repopulates (thrCollab pureObj 1000) ⟨3, ⟨0, 1, 1, 500, 2, false⟩⟩
    ⟨1, 0, [Tree.new 1 0]⟩ [(7, 1), (8, 5), (7, 2), (8, 6), (7, 3), (8, 7)] [4, 4]
    (List.reverse_perm _)).imp (fun _ h => h.imp (fun _ h2 => ⟨h2.1, h2.2.2.2.1⟩))

/-! ## C9: Forest.save and Forest.load -/

theorem getlinesAux_row : ∀ (content rest buf : List Char), (∀ ch, ch ∈ content → ch ≠ NL) →
    getlinesAux (content ++ NL :: rest) buf = (buf ++ content) :: getlinesAux rest [] := by
  intro content
  induction content with
  | nil => intro rest buf _; simp [getlinesAux]
  | cons a content ih =>
    intro rest buf h
    have ha : (a == NL) = false := by
      simpa using h a (List.mem_cons_self _ _)
    have e : getlinesAux ((a :: content) ++ NL :: rest) buf =
        getlinesAux (content ++ NL :: rest) (buf ++ [a]) := by
      rw [List.cons_append]
      simp only [getlinesAux, ha, Bool.false_eq_true, if_false]
    rw [e, ih rest (buf ++ [a]) (fun ch hch => h ch (List.mem_cons_of_mem _ hch))]
    simp

/-- The queue that `Forest::load` fills: the non-empty lines of the file. -/
theorem nonblank_row (content rest : List Char) (hne : content ≠ [])
    (h : ∀ ch, ch ∈ content → ch ≠ NL) :
    (getlines (content ++ NL :: rest)).filter (fun buf => !buf.isEmpty) =
      content :: (getlines rest).filter (fun buf => !buf.isEmpty) := by
  unfold getlines
  rw [getlinesAux_row content rest [] h]
  cases content with
  | nil => exact absurd rfl hne
  | cons a content => simp [List.filter_cons]

theorem nonblank_blank (rest : List Char) :
    (getlines (NL :: rest)).filter (fun buf => !buf.isEmpty) =
      (getlines rest).filter (fun buf => !buf.isEmpty) := by
  simp [getlines, getlinesAux, List.filter_cons]

theorem ne_NL_of_not_isspace (ch : Char) (h : isspace ch = false) : ch ≠ NL := by
  rintro rfl
  exact absurd h (by decide)

theorem nonblank_shape (c : Collab Y X L TF G S) (ok : PayloadOK c) :
    ∀ (s : Shape L TF) (rest : List Char),
      (getlines ((Shape.lines c s).flatten ++ rest)).filter (fun buf => !buf.isEmpty) =
        Shape.rows c [] s ++ (getlines rest).filter (fun buf => !buf.isEmpty) := by
  intro s
  induction s with
  | leaf v =>
    intro rest
    have h := nonblank_row (['1', TAB] ++ c.leafSerialize v) rest (by simp) (by
      intro ch hch
      simp only [List.cons_append, List.nil_append, List.mem_cons] at hch
      rcases hch with rfl | rfl | hch
      · decide
      · decide
      · exact ne_NL_of_not_isspace ch (ok.leaf_nospace v ch hch))
    simpa [Shape.lines, Shape.rows] using h
  | internal tf r l ihr ihl =>
    intro rest
    have h := nonblank_row (['0', TAB] ++ c.tfSerialize tf)
      ((Shape.lines c r).flatten ++ ((Shape.lines c l).flatten ++ rest)) (by simp) (by
      intro ch hch
      simp only [List.cons_append, List.nil_append, List.mem_cons] at hch
      rcases hch with rfl | rfl | hch
      · decide
      · decide
      · exact ne_NL_of_not_isspace ch (ok.tf_nospace tf ch hch))
    rw [ihr, ihl] at h
    simpa [Shape.lines, Shape.rows] using h

theorem nonblank_trees (c : Collab Y X L TF G S) (ok : PayloadOK c) :
    ∀ (ss : List (Shape L TF)) (rest : List Char),
      (getlines ((ss.map (fun s => Shape.lines c s ++ [[NL]])).flatten.flatten ++ rest)).filter
          (fun buf => !buf.isEmpty) =
        (ss.map (Shape.rows c [])).flatten ++
          (getlines rest).filter (fun buf => !buf.isEmpty) := by
  intro ss
  induction ss with
  | nil => intro rest; simp
  | cons s ss ih =>
    intro rest
    have h := nonblank_shape c ok s
      (NL :: ((ss.map (fun s => Shape.lines c s ++ [[NL]])).flatten.flatten ++ rest))
    rw [nonblank_blank, ih] at h
    simpa using h

/-- Reading a run of digits that fits an `int`. -/
theorem readInt_digits (ds : List Char) (hne : ds ≠ [])
    (hd : ∀ ch, ch ∈ ds → isdigit ch = true) (hmax : (digitsValue ds : Int) ≤ INT_MAX) :
    readInt ds = ((digitsValue ds : Int), true, []) := by
  cases ds with
  | nil => exact absurd rfl hne
  | cons a ds =>
    have ha : isdigit a = true := hd a (List.mem_cons_self _ _)
    have hsp : isspace a = false := isspace_of_isdigit a ha
    have hminus : (a == '-') = false := by
      rw [beq_eq_false_iff_ne]
      rintro rfl
      exact absurd ha (by decide)
    have hplus : (a == '+') = false := by
      rw [beq_eq_false_iff_ne]
      rintro rfl
      exact absurd ha (by decide)
    have htake : (a :: ds).takeWhile isdigit = a :: ds :=
      List.takeWhile_eq_self_iff.mpr hd
    have hdrop : (a :: ds).dropWhile isdigit = [] :=
      List.dropWhile_eq_nil_iff.mpr hd
    have hmin : ¬ ((digitsValue (a :: ds) : Int) < INT_MIN) := by
      have : (0 : Int) ≤ (digitsValue (a :: ds) : Int) := Int.ofNat_nonneg _
      have h2 : INT_MIN < 0 := by decide
      omega
    have hmx : ¬ (INT_MAX < (digitsValue (a :: ds) : Int)) := not_lt.mpr hmax
    simp only [readInt, List.dropWhile_cons, hsp, Bool.false_eq_true, if_false, hminus, hplus,
      Bool.or_false, htake, hdrop, List.isEmpty_cons, hmin, hmx]

theorem saveLoop_spec (c : Collab Y X L TF G S) :
    ∀ (ts : List (Tree Y X L TF)) (ss : List (Shape L TF)), ts.map Tree.shape = ss.map some →
      ∀ dq, saveLoop c ts dq =
        some (dq ++ (ss.map (fun s => Shape.lines c s ++ [[NL]])).flatten) := by
  intro ts
  induction ts with
  | nil =>
    intro ss h dq
    cases ss with
    | nil => simp [saveLoop]
    | cons s ss => simp at h
  | cons t ts ih =>
    intro ss h dq
    cases ss with
    | nil => simp at h
    | cons s ss =>
      simp only [List.map_cons, List.cons.injEq] at h
      simp only [saveLoop, Tree.recursive_serialize_of_shape c t s h.1, ih ss h.2]
      simp

theorem loadLoop_spec (c : Collab Y X L TF G S) (ok : PayloadOK c) (dim : Int) (tf : TF) :
    ∀ (ss : List (Shape L TF)) (acc : List (Tree Y X L TF)) (rest : List (List Char)),
      ∃ ts, loadLoop c dim tf ss.length acc ((ss.map (Shape.rows c [])).flatten ++ rest) =
          some (acc ++ ts, rest) ∧ ts.map Tree.shape = ss.map some := by
  intro ss
  induction ss with
  | nil => intro acc rest; exact ⟨[], by simp [loadLoop], rfl⟩
  | cons s ss ih =>
    intro acc rest
    obtain ⟨t, h1, h2⟩ := Tree.recursive_deserializeAux_rows c ok [] (Or.inl rfl) s
      (Shape.rows c [] s ++ ((ss.map (Shape.rows c [])).flatten ++ rest)).length
      ((ss.map (Shape.rows c [])).flatten ++ rest) dim tf (true, none) Tree.null Tree.null []
      (le_refl _)
    obtain ⟨ts, h3, h4⟩ := ih (acc ++ [t]) rest
    refine ⟨t :: ts, ?_, by simp [h2, h4]⟩
    have e : ((s :: ss).map (Shape.rows c [])).flatten ++ rest =
        Shape.rows c [] s ++ ((ss.map (Shape.rows c [])).flatten ++ rest) := by simp
    rw [e]
    simp only [List.length_cons, loadLoop, Tree.recursive_deserialize, Tree.new] at h1 h3 ⊢
    rw [h1]
    simp only [h3]
    simp

theorem results_of_shapes (c : Collab Y X L TF G S) (x : X) :
    ∀ (ts : List (Tree Y X L TF)) (ss : List (Shape L TF)), ts.map Tree.shape = ss.map some →
      ts.map (fun t => Tree.predict c t x) = ss.map (fun s => some (Shape.predict c s x)) := by
  intro ts
  induction ts with
  | nil =>
    intro ss h
    cases ss with
    | nil => rfl
    | cons s ss => simp at h
  | cons t ts ih =>
    intro ss h
    cases ss with
    | nil => simp at h
    | cons s ss =>
      simp only [List.map_cons, List.cons.injEq] at h
      simp only [List.map_cons, Tree.predict_of_shape c t s h.1 x, ih ss h.2]

/-- All trees returned by the training loop are well formed, and there are as
many of them as tree objects were passed in. -/
theorem trainLoop_shapes [LinearOrder S] [Add S] [Mul S] [NatCast S]
    (c : Collab Y X L TF G S) (trp : TreeTrainingParameters S) (data : ExampleSet Y X) :
    ∀ (trees : List (Tree Y X L TF)) (blocks : List (List Nat)) (g : G)
      (ts : List (Tree Y X L TF)) (g1 : G),
      trainLoop c trp data trees blocks g = some (ts, g1) →
      ts.length = trees.length ∧
        ∃ ss : List (Shape L TF), ts.map Tree.shape = ss.map some := by
  intro trees
  induction trees with
  | nil =>
    intro blocks g ts g1 h
    simp only [trainLoop, Option.some.injEq, Prod.mk.injEq] at h
    rw [← h.1]
    exact ⟨rfl, [], rfl⟩
  | cons t trees ih =>
    intro blocks g ts g1 h
    cases blocks with
    | nil => simp [trainLoop] at h
    | cons b bs =>
      simp only [trainLoop] at h
      cases hsub : ExampleSet.subset data b [] with
      | none => simp [hsub] at h
      | some part =>
        simp only [hsub] at h
        cases htr : Tree.train c trp t part g with
        | none => simp [htr] at h
        | some r =>
          obtain ⟨t1, g2⟩ := r
          simp only [htr] at h
          cases hl : trainLoop c trp data trees bs g2 with
          | none => simp [hl] at h
          | some r2 =>
            obtain ⟨ts1, g3⟩ := r2
            simp only [hl, Option.some.injEq, Prod.mk.injEq] at h
            obtain ⟨hlen, ss, hss⟩ := ih bs g2 ts1 g3 hl
            have hs := Tree.trainAux_shape_isSome c trp _ _ _ _ _ _ htr
            rw [Option.isSome_iff_exists] at hs
            obtain ⟨s, hs⟩ := hs
            rw [← h.1]
            exact ⟨by simp [hlen], s :: ss, by simp [hs, hss]⟩

/-- C9: let `F` be a forest returned by `Forest::train` (the tree count is an
`int`, so at most `INT_MAX`), with payloads that are non-empty white-space-free
tokens inverted by `deserialize`. Then `save` writes the tree count and a
newline, then for each tree in ensemble order its lines (node, right subtree,
left subtree) followed by one blank line. `load`, on exactly this file,
queues the non-blank lines, reads the count from the first one and returns a
forest with the same number of trees, in the same order, each with the same
shape and payloads as in `F`; so the results of the trees of the loaded forest
equal those of `F` on every input. -/
theorem save_load_roundtrip [LinearOrder S] [Add S] [Mul S] [NatCast S]
    (c : Collab Y X L TF G S) (ok : PayloadOK c) (trp : ForestTrainingParameters S)
    (F0 : Forest Y X L TF) (data : ExampleSet Y X) (g : G) (F : Forest Y X L TF) (g1 : G)
    (htrain : train c trp F0 data g = some (F, g1)) (hint : trp.ntrees ≤ INT_MAX)
    (R : Forest Y X L TF) :
    ∃ (ss : List (Shape L TF)) (file : List Char) (F2 : Forest Y X L TF),
      F.trees_.map Tree.shape = ss.map some ∧
      save c F = some file ∧
      file = showNat F.trees_.length ++ [NL] ++
        (ss.map (fun s => Shape.lines c s ++ [[NL]])).flatten.flatten ∧
      (getlines file).filter (fun buf => !buf.isEmpty) =
        showNat F.trees_.length :: (ss.map (Shape.rows c [])).flatten ∧
      (readInt (showNat F.trees_.length)).1 = (F.trees_.length : Int) ∧
      load c R file = some F2 ∧ F2.dim_ = R.dim_ ∧ F2.tf_ = R.tf_ ∧
      F2.trees_.length = F.trees_.length ∧
      F2.trees_.map Tree.shape = F.trees_.map Tree.shape ∧
      ∀ x, results c F2 x = results c F x := by
  -- the trees of `F` come from the training loop
  have htr : ∃ ts g2, trainLoop c trp.tree_trp data
      (List.replicate trp.ntrees.toNat (Tree.new F0.dim_ F0.tf_))
      (subidxs_set (c.random_shuffle (List.range data.length) g).1 trp.ntrees)
      (c.random_shuffle (List.range data.length) g).2 = some (ts, g2) ∧ F.trees_ = ts := by
    simp only [train] at htrain
    cases h : trainLoop c trp.tree_trp data
        (List.replicate trp.ntrees.toNat (Tree.new F0.dim_ F0.tf_))
        (subidxs_set (c.random_shuffle (List.range data.length) g).1 trp.ntrees)
        (c.random_shuffle (List.range data.length) g).2 with
    | none => simp [h] at htrain
    | some r =>
      obtain ⟨ts, g2⟩ := r
      simp only [h, Option.some.injEq, Prod.mk.injEq] at htrain
      exact ⟨ts, g2, rfl, by rw [← htrain.1]⟩
  obtain ⟨ts, g2, hloop, hts⟩ := htr
  obtain ⟨hlen, ss, hss⟩ := trainLoop_shapes c trp.tree_trp data _ _ _ _ _ hloop
  rw [List.length_replicate] at hlen
  rw [← hts] at hlen hss
  have hsslen : ss.length = F.trees_.length := by
    have := congrArg List.length hss
    simpa using this.symm
  obtain ⟨hd1, hd2, hd3⟩ := showNat_spec F.trees_.length
  have hmax : ((digitsValue (showNat F.trees_.length) : Nat) : Int) ≤ INT_MAX := by
    rw [hd3, hlen]
    have h2 : (0 : Int) ≤ INT_MAX := by decide
    omega
  have hread := readInt_digits (showNat F.trees_.length) hd1 hd2 hmax
  rw [hd3] at hread
  have hsave : save c F = some (showNat F.trees_.length ++ [NL] ++
      (ss.map (fun s => Shape.lines c s ++ [[NL]])).flatten.flatten) := by
    simp only [save, saveLoop_spec c F.trees_ ss hss [], List.nil_append]
  have hnb : (getlines (showNat F.trees_.length ++ [NL] ++
      (ss.map (fun s => Shape.lines c s ++ [[NL]])).flatten.flatten)).filter
        (fun buf => !buf.isEmpty) =
      showNat F.trees_.length :: (ss.map (Shape.rows c [])).flatten := by
    have h1 := nonblank_row (showNat F.trees_.length)
      ((ss.map (fun s => Shape.lines c s ++ [[NL]])).flatten.flatten ++ []) hd1
      (fun ch hch => ne_NL_of_not_isspace ch (isspace_of_isdigit ch (hd2 ch hch)))
    rw [nonblank_trees c ok ss []] at h1
    simpa [getlines, getlinesAux] using h1
  obtain ⟨ts2, hload, hshape2⟩ := loadLoop_spec c ok R.dim_ R.tf_ ss [] []
  rw [hsslen, List.append_nil, List.nil_append] at hload
  refine ⟨ss, _, ⟨R.dim_, R.tf_, ts2⟩, hss, hsave, rfl, hnb, by rw [hread], ?_, rfl, rfl, ?_,
    ?_, ?_⟩
  · simp only [load, hnb, hread, Int.toNat_ofNat, hload]
  · have := congrArg List.length hshape2
    simp only [List.length_map] at this
    rw [this, hsslen]
  · rw [hshape2, hss]
  · intro x
    simp only [results]
    rw [results_of_shapes c x ts2 ss hshape2, results_of_shapes c x F.trees_ ss hss]

/-- Witness for C9: a forest of three trees trained on six examples, loaded
into a forest object that held one tree. -/
theorem save_load_roundtrip_witness :
    train (sumCollab pureObj 1000) ⟨3, ⟨0, 1, 1, 500, 2, false⟩⟩ ⟨1, 0, []⟩
      [(7, 1), (8, 5), (7, 2), (8, 6), (7, 3), (8, 7)] [4, 4] = some (exForest, []) ∧
    ∃ (file : List Char) (F2 : Forest Nat Nat Nat Nat),
      save (sumCollab pureObj 1000) exForest = some file ∧
      load (sumCollab pureObj 1000) ⟨2, 9, [Tree.new 2 9]⟩ file = some F2 ∧
      F2.trees_.length = exForest.trees_.length ∧
      ∀ x, results (sumCollab pureObj 1000) F2 x =
        results (sumCollab pureObj 1000) exForest x := by
  obtain ⟨ss, file, F2, _, h2, _, _, _, h6, _, _, h9, _, h11⟩ :=
    save_load_roundtrip (sumCollab pureObj 1000) (sumCollab_ok pureObj 1000)
      ⟨3, ⟨0, 1, 1, 500, 2, false⟩⟩ ⟨1, 0, []⟩
      [(7, 1), (8, 5), (7, 2), (8, 6), (7, 3), (8, 7)] [4, 4] exForest [] (by decide)
      (by decide) ⟨2, 9, [Tree.new 2 9]⟩
  exact ⟨by decide, file, F2, h2, h6, h9, h11⟩

end Forest

/-! ## Online training: C11, C12, C18, C19 -/

namespace Tree

variable {Y X L TF G S : Type}

/-- The regrowth branch of `train1` (lines 71-73): the result of `train` on the
node over the buffered stock, with the stock cleared. -/
theorem train1_regrow_eq [LinearOrder S] [Add S] [Mul S] [NatCast S]
    (c : Collab Y X L TF G S) (trp : TreeTrainingParameters S)
    (dim_ : Int) (tf_ : TF) (leaf_ : Bool × Option L) (tr_ tl_ : Tree Y X L TF)
    (stock_ : ExampleSet Y X) (ex : Y × X) (g : G) (hleaf : leaf_.1 = true)
    (hcond : ((stock_.push_back ex).length : Int) ≥ trp.nexamples_restart_th ∧
      c.objfunc (stock_.push_back ex).Y_ ≥ trp.objfunc_restart_th)
    (T : Tree Y X L TF) (g1 : G)
    (ht : train c trp (node dim_ tf_ leaf_ tr_ tl_ (stock_.push_back ex))
      (stock_.push_back ex) g = some (T, g1)) :
    train1 c trp (node dim_ tf_ leaf_ tr_ tl_ stock_) ex g = some (clear_stock T, g1) := by
  obtain ⟨b, v⟩ := leaf_
  simp only at hleaf
  subst hleaf
  have hs := trainAux_shape_isSome c trp _ _ _ _ _ _ ht
  rw [train_flag_irrel c trp dim_ tf_ true false v] at ht
  cases T with
  | null => simp [shape] at hs
  | node d1 t1 l1 r1 l2 s1 =>
    simp only [train1, Bool.not_true, Bool.false_eq_true, if_false, hcond, and_self, if_true, ht,
      clear_stock]

/-- The buffering branch of `train1` (line 67 alone). -/
theorem train1_buffer_eq [LinearOrder S] [Add S] [Mul S] [NatCast S]
    (c : Collab Y X L TF G S) (trp : TreeTrainingParameters S)
    (dim_ : Int) (tf_ : TF) (leaf_ : Bool × Option L) (tr_ tl_ : Tree Y X L TF)
    (stock_ : ExampleSet Y X) (ex : Y × X) (g : G) (hleaf : leaf_.1 = true)
    (hcond : ¬ (((stock_.push_back ex).length : Int) ≥ trp.nexamples_restart_th ∧
      c.objfunc (stock_.push_back ex).Y_ ≥ trp.objfunc_restart_th)) :
    train1 c trp (node dim_ tf_ leaf_ tr_ tl_ stock_) ex g =
      some (node dim_ tf_ leaf_ tr_ tl_ (stock_ ++ [ex]), g) := by
  obtain ⟨b, v⟩ := leaf_
  simp only at hleaf
  subst hleaf
  simp only [ExampleSet.push_back] at hcond
  simp only [train1, Bool.not_true, Bool.false_eq_true, if_false, hcond, ExampleSet.push_back]

/-- C19: on a node flagged as leaf, when after appending the example the stock
has at least `nexamples_restart_th` examples and its objective is at least
`objfunc_restart_th`, `train` on that node over the buffered stock (the old
stock followed by the new example) returns a tree `T`, and `train1` returns
exactly `T` with its stock emptied, whether `T` is internal or a leaf. -/
theorem train1_regrow [LinearOrder S] [Add S] [Mul S] [NatCast S]
    (c : Collab Y X L TF G S) (trp : TreeTrainingParameters S)
    (dim_ : Int) (tf_ : TF) (leaf_ : Bool × Option L) (tr_ tl_ : Tree Y X L TF)
    (stock_ : ExampleSet Y X) (ex : Y × X) (g : G) (hleaf : leaf_.1 = true)
    (hsize : ((stock_ ++ [ex]).length : Int) ≥ trp.nexamples_restart_th)
    (hobj : c.objfunc (ExampleSet.Y_ (stock_ ++ [ex])) ≥ trp.objfunc_restart_th) :
    ∃ dim1 tf1 leaf1 tr1 tl1 g1,
      train c trp (node dim_ tf_ leaf_ tr_ tl_ (stock_ ++ [ex])) (stock_ ++ [ex]) g =
        some (node dim1 tf1 leaf1 tr1 tl1 (stock_ ++ [ex]), g1) ∧
      train1 c trp (node dim_ tf_ leaf_ tr_ tl_ stock_) ex g =
        some (node dim1 tf1 leaf1 tr1 tl1 [], g1) := by
  obtain ⟨T, g1, s, ht, hs⟩ := train_total c trp dim_ tf_ leaf_ tr_ tl_ (stock_ ++ [ex])
    (stock_ ++ [ex]) g
  have h1 := train1_regrow_eq c trp dim_ tf_ leaf_ tr_ tl_ stock_ ex g hleaf ⟨hsize, hobj⟩ T g1 ht
  have hstock : ∃ dim1 tf1 leaf1 tr1 tl1, T = node dim1 tf1 leaf1 tr1 tl1 (stock_ ++ [ex]) := by
    unfold train at ht
    rw [trainAux_succ] at ht
    split_ifs at ht with h2 h3
    · simp only [Option.some.injEq, Prod.mk.injEq] at ht
      exact ⟨_, _, _, _, _, ht.1.symm⟩
    · simp only [Option.some.injEq, Prod.mk.injEq] at ht
      exact ⟨_, _, _, _, _, ht.1.symm⟩
    · split at ht
      · simp at ht
      · split at ht
        · simp at ht
        · simp only [Option.some.injEq, Prod.mk.injEq] at ht
          exact ⟨_, _, _, _, _, ht.1.symm⟩
  obtain ⟨dim1, tf1, leaf1, tr1, tl1, rfl⟩ := hstock
  exact ⟨dim1, tf1, leaf1, tr1, tl1, g1, ht, h1⟩

/-- Witness for C19: a leaf holding one example receives a second one with
another label, with `nexamples_restart_th = 2`. -/
theorem train1_regrow_witness :
    ∃ dim1 tf1 leaf1 tr1 tl1 g1,
      train (thrCollab pureObj 1000) ⟨0, 1, 1, 2, 2, false⟩
        (node 1 0 (true, none) null null ([(7, 1)] ++ [(8, 5)])) ([(7, 1)] ++ [(8, 5)]) [3, 4] =
        some (node dim1 tf1 leaf1 tr1 tl1 ([(7, 1)] ++ [(8, 5)]), g1) ∧
      train1 (thrCollab pureObj 1000) ⟨0, 1, 1, 2, 2, false⟩
        (node 1 0 (true, none) null null [(7, 1)]) (8, 5) [3, 4] =
        some (node dim1 tf1 leaf1 tr1 tl1 [], g1) :=
  train1_regrow (thrCollab pureObj 1000) ⟨0, 1, 1, 2, 2, false⟩ 1 0 (true, none) null null
    [(7, 1)] (8, 5) [3, 4] rfl (by decide) (by decide)

/-- C11: let the parameters satisfy `objfunc_th < objfunc_restart_th` and
`nexamples_th < nexamples_restart_th`, and let a `train1` call on a node
flagged as leaf bring the stock to at least `nexamples_restart_th` examples
with an objective of at least `objfunc_restart_th`. Then the stopping rule of
`train` does not apply to the stock, and `train1` returns a node that is
internal with two children (non-null and well formed), unless the test chosen
by the sampling loop leaves one partition of the stock empty; in that case,
and only then, the node is a leaf built from the labels of the stock. -/
theorem train1_regrow_outcome [LinearOrder S] [Add S] [Mul S] [NatCast S]
    (c : Collab Y X L TF G S) (trp : TreeTrainingParameters S)
    (hinv1 : trp.objfunc_th < trp.objfunc_restart_th)
    (hinv2 : trp.nexamples_th < trp.nexamples_restart_th)
    (dim_ : Int) (tf_ : TF) (leaf_ : Bool × Option L) (tr_ tl_ : Tree Y X L TF)
    (stock_ : ExampleSet Y X) (ex : Y × X) (g : G) (hleaf : leaf_.1 = true)
    (hsize : ((stock_ ++ [ex]).length : Int) ≥ trp.nexamples_restart_th)
    (hobj : c.objfunc (ExampleSet.Y_ (stock_ ++ [ex])) ≥ trp.objfunc_restart_th) :
    ¬ (c.objfunc (ExampleSet.Y_ (stock_ ++ [ex])) ≤ trp.objfunc_th ∨
        ((stock_ ++ [ex]).length : Int) ≤ trp.nexamples_th) ∧
    ∃ T g1, train1 c trp (node dim_ tf_ leaf_ tr_ tl_ stock_) ex g = some (T, g1) ∧
      (((split c (bestSearch c trp tf_ (stock_ ++ [ex]) g).2.1 (stock_ ++ [ex])).1.length = 0 ∨
          (split c (bestSearch c trp tf_ (stock_ ++ [ex]) g).2.1 (stock_ ++ [ex])).2.length = 0) →
        T = node dim_ tf_ (true, some (c.leafFromLabels (ExampleSet.Y_ (stock_ ++ [ex]))))
          tr_ tl_ []) ∧
      (¬ ((split c (bestSearch c trp tf_ (stock_ ++ [ex]) g).2.1 (stock_ ++ [ex])).1.length = 0 ∨
          (split c (bestSearch c trp tf_ (stock_ ++ [ex]) g).2.1 (stock_ ++ [ex])).2.length = 0) →
        ∃ tr1 tl1, T = node dim_ (bestSearch c trp tf_ (stock_ ++ [ex]) g).2.1 (false, leaf_.2)
            tr1 tl1 [] ∧
          tr1 ≠ null ∧ tl1 ≠ null ∧ (shape tr1).isSome = true ∧ (shape tl1).isSome = true) ∧
      (isLeaf T = true ↔
        ((split c (bestSearch c trp tf_ (stock_ ++ [ex]) g).2.1 (stock_ ++ [ex])).1.length = 0 ∨
          (split c (bestSearch c trp tf_ (stock_ ++ [ex]) g).2.1 (stock_ ++ [ex])).2.length = 0)) := by
  have hstop : ¬ (c.objfunc (ExampleSet.Y_ (stock_ ++ [ex])) ≤ trp.objfunc_th ∨
      ((stock_ ++ [ex]).length : Int) ≤ trp.nexamples_th) := by
    rintro (h | h)
    · exact absurd (lt_of_lt_of_le hinv1 hobj) (not_lt.mpr h)
    · omega
  refine ⟨hstop, ?_⟩
  by_cases hd : (split c (bestSearch c trp tf_ (stock_ ++ [ex]) g).2.1 (stock_ ++ [ex])).1.length
      = 0 ∨
      (split c (bestSearch c trp tf_ (stock_ ++ [ex]) g).2.1 (stock_ ++ [ex])).2.length = 0
  · have ht := train_of_degenerate c trp dim_ tf_ leaf_ tr_ tl_ (stock_ ++ [ex]) (stock_ ++ [ex])
      g hstop hd
    have h1 := train1_regrow_eq c trp dim_ tf_ leaf_ tr_ tl_ stock_ ex g hleaf ⟨hsize, hobj⟩
      _ _ ht
    exact ⟨_, _, h1, fun _ => rfl, fun hn => absurd hd hn, fun _ => hd, fun _ => rfl⟩
  · obtain ⟨tr1, g1, tl1, g2, hr, hl, ht⟩ := train_of_commit c trp dim_ tf_ leaf_ tr_ tl_
      (stock_ ++ [ex]) (stock_ ++ [ex]) g hstop hd
    have h1 := train1_regrow_eq c trp dim_ tf_ leaf_ tr_ tl_ stock_ ex g hleaf ⟨hsize, hobj⟩
      _ _ ht
    have hsr := trainAux_shape_isSome c trp _ _ _ _ _ _ hr
    have hsl := trainAux_shape_isSome c trp _ _ _ _ _ _ hl
    refine ⟨_, _, h1, fun h => absurd h hd, fun _ => ⟨tr1, tl1, rfl, ?_, ?_, hsr, hsl⟩, ?_⟩
    · rintro rfl; simp [shape] at hsr
    · rintro rfl; simp [shape] at hsl
    · exact ⟨fun h => by simp [clear_stock, isLeaf] at h, fun h => absurd h hd⟩

/-- Witness for C11: the second example arrives with another label; the best
candidate (threshold 3) separates the two examples, so the leaf becomes
internal. -/
theorem train1_regrow_outcome_witness :
    ∃ T g1, train1 (thrCollab pureObj 1000) ⟨0, 1, 1, 2, 2, false⟩
        (node 1 0 (true, none) null null [(7, 1)]) (8, 5) [3, 4] = some (T, g1) ∧
      isLeaf T = false :=
  (train1_regrow_outcome (thrCollab pureObj 1000) ⟨0, 1, 1, 2, 2, false⟩ (by decide) (by decide)
    1 0 (true, none) null null [(7, 1)] (8, 5) [3, 4] rfl (by decide) (by decide)).2.imp
    (fun T h => h.imp (fun _ h2 => ⟨h2.1, by
      have h3 := h2.2.2.2
      cases hT : isLeaf T with
      | false => rfl
      | true => exact absurd (h3.mp hT) (by decide)⟩))

/-- C12: on a node flagged as leaf, if after appending the example the stock
has fewer than `nexamples_restart_th` examples or its objective is below
`objfunc_restart_th`, `train1` returns the same node (same leaf flag and value,
same child pointers) with the example appended at the end of its stock, and
leaves the random state untouched. Hence any sequence of `train1` calls that
keeps the stock below `nexamples_restart_th` only appends to the stock. -/
theorem train1_buffers [LinearOrder S] [Add S] [Mul S] [NatCast S]
    (c : Collab Y X L TF G S) (trp : TreeTrainingParameters S)
    (dim_ : Int) (tf_ : TF) (leaf_ : Bool × Option L) (tr_ tl_ : Tree Y X L TF)
    (g : G) (hleaf : leaf_.1 = true) :
    (∀ (stock_ : ExampleSet Y X) (ex : Y × X),
      (((stock_ ++ [ex]).length : Int) < trp.nexamples_restart_th ∨
        c.objfunc (ExampleSet.Y_ (stock_ ++ [ex])) < trp.objfunc_restart_th) →
      train1 c trp (node dim_ tf_ leaf_ tr_ tl_ stock_) ex g =
        some (node dim_ tf_ leaf_ tr_ tl_ (stock_ ++ [ex]), g)) ∧
    (∀ (exs stock_ : ExampleSet Y X),
      ((stock_.length + exs.length : Nat) : Int) < trp.nexamples_restart_th →
      train1_seq c trp (node dim_ tf_ leaf_ tr_ tl_ stock_) exs g =
        some (node dim_ tf_ leaf_ tr_ tl_ (stock_ ++ exs), g)) := by
  have h1 : ∀ (stock_ : ExampleSet Y X) (ex : Y × X),
      (((stock_ ++ [ex]).length : Int) < trp.nexamples_restart_th ∨
        c.objfunc (ExampleSet.Y_ (stock_ ++ [ex])) < trp.objfunc_restart_th) →
      train1 c trp (node dim_ tf_ leaf_ tr_ tl_ stock_) ex g =
        some (node dim_ tf_ leaf_ tr_ tl_ (stock_ ++ [ex]), g) := by
    intro stock_ ex h
    apply train1_buffer_eq c trp dim_ tf_ leaf_ tr_ tl_ stock_ ex g hleaf
    rintro ⟨h2, h3⟩
    simp only [ExampleSet.push_back] at h2 h3
    rcases h with h | h
    · omega
    · exact absurd h (not_lt.mpr h3)
  refine ⟨h1, ?_⟩
  intro exs
  induction exs with
  | nil => intro stock_ _; simp [train1_seq]
  | cons ex exs ih =>
    intro stock_ h
    have hlen : ((stock_ ++ [ex]).length : Int) < trp.nexamples_restart_th := by
      simp only [List.length_append, List.length_cons, List.length_nil] at h ⊢
      omega
    simp only [train1_seq, h1 stock_ ex (Or.inl hlen)]
    rw [ih (stock_ ++ [ex]) (by
      simp only [List.length_append, List.length_cons, List.length_nil] at h ⊢
      omega)]
    simp

/-- Witness for C12: three examples buffered in a fresh tree with
`nexamples_restart_th = 500`. -/
theorem train1_buffers_witness :
    train1 (thrCollab pureObj 1000) ⟨0, 1, 1, 500, 2, false⟩
        (node 1 0 (true, none) null null [(7, 1)]) (8, 5) [3, 4] =
      some (node 1 0 (true, none) null null [(7, 1), (8, 5)], [3, 4]) ∧
    train1_seq (thrCollab pureObj 1000) ⟨0, 1, 1, 500, 2, false⟩
        (node 1 0 (true, none) null null []) [(7, 1), (8, 5), (7, 2)] [3, 4] =
      some (node 1 0 (true, none) null null [(7, 1), (8, 5), (7, 2)], [3, 4]) :=
  ⟨(train1_buffers (thrCollab pureObj 1000) ⟨0, 1, 1, 500, 2, false⟩ 1 0 (true, none) null null
      [3, 4] rfl).1 [(7, 1)] (8, 5) (Or.inl (by decide)),
   (train1_buffers (thrCollab pureObj 1000) ⟨0, 1, 1, 500, 2, false⟩ 1 0 (true, none) null null
      [3, 4] rfl).2 [(7, 1), (8, 5), (7, 2)] [] (by decide)⟩

/-! ## The structural invariant: C13, C18 -/

theorem internalInv_of_shape : ∀ t : Tree Y X L TF, (shape t).isSome = true → internalInv t := by
  intro t
  induction t with
  | null => intro h; simp [shape] at h
  | node dim_ tf_ leaf_ tr_ tl_ stock_ ihr ihl =>
    intro h
    obtain ⟨b, v⟩ := leaf_
    cases b with
    | true => simp [internalInv]
    | false =>
      simp only [shape, Bool.false_eq_true, if_false] at h
      cases hr : shape tr_ with
      | none => simp [hr] at h
      | some r =>
        cases hl : shape tl_ with
        | none => simp [hr, hl] at h
        | some l =>
          simp only [internalInv, Bool.false_eq_true, if_false]
          exact ⟨ihr (by simp [hr]), ihl (by simp [hl])⟩

theorem internalInv_clear_stock : ∀ t : Tree Y X L TF, internalInv t →
    internalInv (clear_stock t) := by
  intro t h
  cases t with
  | null => exact h
  | node dim_ tf_ leaf_ tr_ tl_ stock_ => exact h

/-- On a tree whose internal nodes all have two children, `train1` returns,
keeps that property, and does not turn an internal root into a leaf. -/
theorem train1_internalInv [LinearOrder S] [Add S] [Mul S] [NatCast S]
    (c : Collab Y X L TF G S) (trp : TreeTrainingParameters S) (ex : Y × X) :
    ∀ (t : Tree Y X L TF) (g : G), internalInv t →
      ∃ t1 g1, train1 c trp t ex g = some (t1, g1) ∧ internalInv t1 ∧
        (isLeaf t = false → isLeaf t1 = false) := by
  intro t
  induction t with
  | null => intro g h; exact absurd h (by simp [internalInv])
  | node dim_ tf_ leaf_ tr_ tl_ stock_ ihr ihl =>
    intro g h
    obtain ⟨b, v⟩ := leaf_
    cases b with
    | false =>
      simp only [internalInv, Bool.false_eq_true, if_false] at h
      by_cases htf : c.tfEval tf_ ex.2 = true
      · obtain ⟨t1, g1, h1, h2, _⟩ := ihr g h.1
        refine ⟨node dim_ tf_ (false, v) t1 tl_ stock_, g1, ?_, ?_, fun _ => rfl⟩
        · simp only [train1, Bool.not_false, if_true, htf, h1]
        · simp only [internalInv, Bool.false_eq_true, if_false]
          exact ⟨h2, h.2⟩
      · obtain ⟨t1, g1, h1, h2, _⟩ := ihl g h.2
        refine ⟨node dim_ tf_ (false, v) tr_ t1 stock_, g1, ?_, ?_, fun _ => rfl⟩
        · simp only [Bool.not_eq_true] at htf
          simp only [train1, Bool.not_false, if_true, htf, Bool.false_eq_true, if_false, h1]
        · simp only [internalInv, Bool.false_eq_true, if_false]
          exact ⟨h.1, h2⟩
    | true =>
      by_cases hcond : ((stock_.push_back ex).length : Int) ≥ trp.nexamples_restart_th ∧
          c.objfunc (stock_.push_back ex).Y_ ≥ trp.objfunc_restart_th
      · obtain ⟨T, g1, s, ht, hs⟩ := train_total c trp dim_ tf_ (true, v) tr_ tl_
          (stock_.push_back ex) (stock_.push_back ex) g
        refine ⟨clear_stock T, g1,
          train1_regrow_eq c trp dim_ tf_ (true, v) tr_ tl_ stock_ ex g rfl hcond T g1 ht,
          internalInv_clear_stock T (internalInv_of_shape T (by simp [hs])), ?_⟩
        intro hl; simp [isLeaf] at hl
      · refine ⟨_, _, train1_buffer_eq c trp dim_ tf_ (true, v) tr_ tl_ stock_ ex g rfl hcond,
          by simp [internalInv], ?_⟩
        intro hl; simp [isLeaf] at hl

/-- C18: on a node whose leaf flag is false, `train1` with the example
`(y, x)` returns the same node (same test, same stock, leaf flag still false)
in which the right child is replaced by the result of `train1` on it when the
test is true on `x`, and the left child by the result of `train1` on it when
the test is false; the other child is the one it was. When the children are
there (every internal node of the tree has its two children), this call
returns, and the node it returns is not a leaf. -/
theorem train1_internal [LinearOrder S] [Add S] [Mul S] [NatCast S]
    (c : Collab Y X L TF G S) (trp : TreeTrainingParameters S)
    (dim_ : Int) (tf_ : TF) (leaf_ : Bool × Option L) (tr_ tl_ : Tree Y X L TF)
    (stock_ : ExampleSet Y X) (ex : Y × X) (g : G) (hint : leaf_.1 = false) :
    train1 c trp (node dim_ tf_ leaf_ tr_ tl_ stock_) ex g =
      (if c.tfEval tf_ ex.2 then
        (train1 c trp tr_ ex g).map (fun r => (node dim_ tf_ leaf_ r.1 tl_ stock_, r.2))
      else
        (train1 c trp tl_ ex g).map (fun r => (node dim_ tf_ leaf_ tr_ r.1 stock_, r.2))) ∧
    (internalInv (node dim_ tf_ leaf_ tr_ tl_ stock_) →
      ∃ child g1,
        (if c.tfEval tf_ ex.2 then train1 c trp tr_ ex g else train1 c trp tl_ ex g)
          = some (child, g1) ∧
        train1 c trp (node dim_ tf_ leaf_ tr_ tl_ stock_) ex g =
          some ((if c.tfEval tf_ ex.2 then node dim_ tf_ leaf_ child tl_ stock_
            else node dim_ tf_ leaf_ tr_ child stock_), g1) ∧
        isLeaf (if c.tfEval tf_ ex.2 then node dim_ tf_ leaf_ child tl_ stock_
            else node dim_ tf_ leaf_ tr_ child stock_) = false) := by
  obtain ⟨b, v⟩ := leaf_
  simp only at hint
  subst hint
  have heq : train1 c trp (node dim_ tf_ (false, v) tr_ tl_ stock_) ex g =
      (if c.tfEval tf_ ex.2 then
        (train1 c trp tr_ ex g).map (fun r => (node dim_ tf_ (false, v) r.1 tl_ stock_, r.2))
      else
        (train1 c trp tl_ ex g).map (fun r => (node dim_ tf_ (false, v) tr_ r.1 stock_, r.2))) := by
    by_cases htf : c.tfEval tf_ ex.2 = true
    · simp only [train1, Bool.not_false, if_true, htf]
      cases train1 c trp tr_ ex g with
      | none => rfl
      | some r => rfl
    · simp only [Bool.not_eq_true] at htf
      simp only [train1, Bool.not_false, if_true, htf, Bool.false_eq_true, if_false]
      cases train1 c trp tl_ ex g with
      | none => rfl
      | some r => rfl
  refine ⟨heq, ?_⟩
  intro hinv
  simp only [internalInv, Bool.false_eq_true, if_false] at hinv
  by_cases htf : c.tfEval tf_ ex.2 = true
  · obtain ⟨t1, g1, h1, _, _⟩ := train1_internalInv c trp ex tr_ g hinv.1
    refine ⟨t1, g1, by simp [htf, h1], ?_, by simp [htf, isLeaf]⟩
    rw [heq]; simp [htf, h1]
  · obtain ⟨t1, g1, h1, _, _⟩ := train1_internalInv c trp ex tl_ g hinv.2
    refine ⟨t1, g1, by simp [htf, h1], ?_, by simp [htf, isLeaf]⟩
    rw [heq]; simp [htf, h1]

/-- Witness for C18: the example `(8, 5)` is routed to the right child of the
example tree, which buffers it; the left child is untouched. -/
theorem train1_internal_witness :
    train1 (thrCollab pureObj 1000) ⟨0, 1, 1, 500, 2, false⟩ exTreeL (8, 5) [3, 4] =
      some (node 1 3 (false, none) (node 1 3 (true, some [8]) null null [(8, 5)])
        (node 1 3 (true, some [7]) null null []) [], [3, 4]) := by
  have h := (train1_internal (thrCollab pureObj 1000) ⟨0, 1, 1, 500, 2, false⟩ 1 3 (false, none)
    (node 1 3 (true, some [8]) null null []) (node 1 3 (true, some [7]) null null []) []
    (8, 5) [3, 4] rfl).1
  rw [exTreeL, h]
  decide

theorem internalInv_of_structInv : ∀ t : Tree Y X L TF, structInv t → internalInv t := by
  intro t
  induction t with
  | null => intro h; exact h
  | node dim_ tf_ leaf_ tr_ tl_ stock_ ihr ihl =>
    intro h
    obtain ⟨b, v⟩ := leaf_
    cases b with
    | true => simp [internalInv]
    | false =>
      simp only [structInv, Bool.false_eq_true, if_false] at h
      simp only [internalInv, Bool.false_eq_true, if_false]
      exact ⟨ihr h.1, ihl h.2⟩

/-- C16: in a `train` call in which the stopping rule does not apply and the
two partitions of `data` by `best_tf` are both non-empty, the node becomes
internal with `best_tf` as its test; its right child is the result of `train` on
a fresh tree over exactly the examples on which `best_tf` is true, its left
child the result of `train` on a fresh tree over exactly those on which it is
false (the right child is trained first, the left one from the random state
the right one leaves). Both partitions keep the original order, and together
they hold every example of `data` exactly once. -/
theorem train_commit [LinearOrder S] [Add S] [Mul S] [NatCast S]
    (c : Collab Y X L TF G S) (trp : TreeTrainingParameters S)
    (dim_ : Int) (tf_ : TF) (leaf_ : Bool × Option L) (tr_ tl_ : Tree Y X L TF)
    (stock_ data : ExampleSet Y X) (g : G)
    (hstop : ¬ (c.objfunc data.Y_ ≤ trp.objfunc_th ∨ (data.length : Int) ≤ trp.nexamples_th))
    (hd : ¬ ((split c (bestSearch c trp tf_ data g).2.1 data).1.length = 0 ∨
        (split c (bestSearch c trp tf_ data g).2.1 data).2.length = 0)) :
    ∃ tr1 g1 tl1 g2,
      train c trp (new dim_ (bestSearch c trp tf_ data g).2.1)
        (data.filter (fun e => c.tfEval (bestSearch c trp tf_ data g).2.1 e.2))
        (sampleState c tf_ trp.nsamplings.toNat g) = some (tr1, g1) ∧
      train c trp (new dim_ (bestSearch c trp tf_ data g).2.1)
        (data.filter (fun e => !(c.tfEval (bestSearch c trp tf_ data g).2.1 e.2))) g1
        = some (tl1, g2) ∧
      train c trp (node dim_ tf_ leaf_ tr_ tl_ stock_) data g =
        some (node dim_ (bestSearch c trp tf_ data g).2.1 (false, leaf_.2) tr1 tl1 stock_,
          g2) ∧
      (data.filter (fun e => c.tfEval (bestSearch c trp tf_ data g).2.1 e.2)).Sublist data ∧
      (data.filter (fun e => !(c.tfEval (bestSearch c trp tf_ data g).2.1 e.2))).Sublist data ∧
      (data.filter (fun e => c.tfEval (bestSearch c trp tf_ data g).2.1 e.2) ++
        data.filter (fun e => !(c.tfEval (bestSearch c trp tf_ data g).2.1 e.2))).Perm data ∧
      (∀ e, e ∈ data.filter (fun e => c.tfEval (bestSearch c trp tf_ data g).2.1 e.2) ↔
        e ∈ data ∧ c.tfEval (bestSearch c trp tf_ data g).2.1 e.2 = true) ∧
      (∀ e, e ∈ data.filter (fun e => !(c.tfEval (bestSearch c trp tf_ data g).2.1 e.2)) ↔
        e ∈ data ∧ c.tfEval (bestSearch c trp tf_ data g).2.1 e.2 = false) := by
  obtain ⟨tr1, g1, tl1, g2, hr, hl, ht⟩ := train_of_commit c trp dim_ tf_ leaf_ tr_ tl_
    stock_ data g hstop hd
  refine ⟨tr1, g1, tl1, g2, hr, hl, ht, List.filter_sublist _, List.filter_sublist _,
    List.filter_append_perm _ _, ?_, ?_⟩
  · intro e; simp [List.mem_filter]
  · intro e; simp [List.mem_filter]

/-- Witness for C16: two examples separated by the candidate 3. -/
theorem train_commit_witness :
    ∃ tr1 g1 tl1 g2,
      train (thrCollab pureObj 1000) ⟨0, 1, 1, 500, 1, false⟩ (new 1 3) [(8, 5)] []
        = some (tr1, g1) ∧
      train (thrCollab pureObj 1000) ⟨0, 1, 1, 500, 1, false⟩ (new 1 3) [(7, 1)] g1
        = some (tl1, g2) ∧
      train (thrCollab pureObj 1000) ⟨0, 1, 1, 500, 1, false⟩ (new 1 0) [(7, 1), (8, 5)] [3] =
        some (node 1 3 (false, none) tr1 tl1 [], g2) := by
  obtain ⟨tr1, g1, tl1, g2, h1, h2, h3, _⟩ := train_commit (thrCollab pureObj 1000)
    ⟨0, 1, 1, 500, 1, false⟩ 1 0 (true, none) null null [] [(7, 1), (8, 5)] [3]
    (by decide) (by decide)
  exact ⟨tr1, g1, tl1, g2, h1, h2, h3⟩

/-! ## Routing the training data: C17, C20 -/

theorem leafData_perm (c : Collab Y X L TF G S) :
    ∀ (s : Shape L TF) (data : ExampleSet Y X), (Shape.leafData c s data).flatten.Perm data := by
  intro s
  induction s with
  | leaf v => intro data; simp [Shape.leafData]
  | internal tf r l ihr ihl =>
    intro data
    simp only [Shape.leafData, List.flatten_append]
    exact ((ihr _).append (ihl _)).trans (List.filter_append_perm _ _)

theorem reach_mem_leafData (c : Collab Y X L TF G S) (x : X) :
    ∀ (s : Shape L TF) (data : ExampleSet Y X),
      Shape.reach c s data x ∈ Shape.leafData c s data := by
  intro s
  induction s with
  | leaf v => intro data; simp [Shape.reach, Shape.leafData]
  | internal tf r l ihr ihl =>
    intro data
    simp only [Shape.reach, Shape.leafData, List.mem_append]
    split_ifs
    · exact Or.inl (ihr _)
    · exact Or.inr (ihl _)

theorem mem_reach (c : Collab Y X L TF G S) (ex : Y × X) :
    ∀ (s : Shape L TF) (data : ExampleSet Y X), ex ∈ data → ex ∈ Shape.reach c s data ex.2 := by
  intro s
  induction s with
  | leaf v => intro data h; exact h
  | internal tf r l ihr ihl =>
    intro data h
    simp only [Shape.reach]
    by_cases htf : c.tfEval tf ex.2 = true
    · rw [if_pos htf]
      exact ihr _ (by simp [split, List.mem_filter, h, htf])
    · rw [if_neg htf]
      exact ihl _ (by simp [split, List.mem_filter, h, htf])

/-- What `train` returns, read through routing: every leaf value is built
from the labels of the examples that the tests route to that leaf; a leaf was
made either by the stopping rule or by the degenerate-split guard; no leaf of a
tree grown from a non-empty set is empty; the number of leaves and the depth
are bounded by the number of examples. -/
theorem trainAux_routing [LinearOrder S] [Add S] [Mul S] [NatCast S]
    (c : Collab Y X L TF G S) (trp : TreeTrainingParameters S) :
    ∀ (fuel : Nat) (t : Tree Y X L TF) (data : ExampleSet Y X) (g : G) (T : Tree Y X L TF)
      (g1 : G), trainAux c trp fuel t data g = some (T, g1) →
      ∃ s, shape T = some s ∧
        Shape.leaves s = (Shape.leafData c s data).map (fun d => c.leafFromLabels d.Y_) ∧
        (∀ x, Shape.predict c s x = c.leafFromLabels (Shape.reach c s data x).Y_) ∧
        (∀ d, d ∈ Shape.leafData c s data →
          (c.objfunc d.Y_ ≤ trp.objfunc_th ∨ (d.length : Int) ≤ trp.nexamples_th) ∨
          ∃ tf0 g0, (split c (bestSearch c trp tf0 d g0).2.1 d).1.length = 0 ∨
            (split c (bestSearch c trp tf0 d g0).2.1 d).2.length = 0) ∧
        (data ≠ [] → ∀ d, d ∈ Shape.leafData c s data → d ≠ []) ∧
        (Shape.leaves s).length ≤ max 1 data.length ∧
        Shape.depth s + 1 ≤ max 1 data.length := by
  intro fuel
  induction fuel with
  | zero =>
    intro t data g T g1 h
    cases t <;> simp [trainAux] at h
  | succ fuel ih =>
    intro t data g T g1 h
    cases t with
    | null => simp [trainAux] at h
    | node dim_ tf_ leaf_ tr_ tl_ stock_ =>
      rw [trainAux_succ] at h
      split_ifs at h with hs hd
      · simp only [Option.some.injEq, Prod.mk.injEq] at h
        refine ⟨Shape.leaf (c.leafFromLabels data.Y_), by rw [← h.1]; simp [shape], ?_⟩
        refine ⟨by simp [Shape.leaves, Shape.leafData], fun x => rfl, ?_, ?_, ?_, ?_⟩
        · intro d hdm
          simp only [Shape.leafData, List.mem_singleton] at hdm
          subst hdm
          exact Or.inl hs
        · intro hne d hdm
          simp only [Shape.leafData, List.mem_singleton] at hdm
          subst hdm
          exact hne
        · simp [Shape.leaves]
        · simp [Shape.depth]
      · simp only [Option.some.injEq, Prod.mk.injEq] at h
        refine ⟨Shape.leaf (c.leafFromLabels data.Y_), by rw [← h.1]; simp [shape], ?_⟩
        refine ⟨by simp [Shape.leaves, Shape.leafData], fun x => rfl, ?_, ?_, ?_, ?_⟩
        · intro d hdm
          simp only [Shape.leafData, List.mem_singleton] at hdm
          subst hdm
          exact Or.inr ⟨tf_, g, hd⟩
        · intro hne d hdm
          simp only [Shape.leafData, List.mem_singleton] at hdm
          subst hdm
          exact hne
        · simp [Shape.leaves]
        · simp [Shape.depth]
      · cases hr : trainAux c trp fuel (new dim_ (bestSearch c trp tf_ data g).2.1)
            (split c (bestSearch c trp tf_ data g).2.1 data).1
            (bestSearch c trp tf_ data g).2.2 with
        | none => simp [hr] at h
        | some r =>
          obtain ⟨tr1, g2⟩ := r
          simp only [hr] at h
          cases hl : trainAux c trp fuel (new dim_ (bestSearch c trp tf_ data g).2.1)
              (split c (bestSearch c trp tf_ data g).2.1 data).2 g2 with
          | none => simp [hl] at h
          | some l =>
            obtain ⟨tl1, g3⟩ := l
            simp only [hl, Option.some.injEq, Prod.mk.injEq] at h
            obtain ⟨sr, a1, a2, a3, a4, a5, a6, a7⟩ := ih _ _ _ _ _ hr
            obtain ⟨sl, b1, b2, b3, b4, b5, b6, b7⟩ := ih _ _ _ _ _ hl
            have hlen := split_length c (bestSearch c trp tf_ data g).2.1 data
            have hrne : (split c (bestSearch c trp tf_ data g).2.1 data).1 ≠ [] := by
              intro h0; apply hd; left; rw [h0]; rfl
            have hlne : (split c (bestSearch c trp tf_ data g).2.1 data).2 ≠ [] := by
              intro h0; apply hd; right; rw [h0]; rfl
            have hrpos : 0 < (split c (bestSearch c trp tf_ data g).2.1 data).1.length :=
              List.length_pos.mpr hrne
            have hlpos : 0 < (split c (bestSearch c trp tf_ data g).2.1 data).2.length :=
              List.length_pos.mpr hlne
            refine ⟨Shape.internal (bestSearch c trp tf_ data g).2.1 sr sl, ?_, ?_, ?_, ?_, ?_,
              ?_, ?_⟩
            · rw [← h.1]; simp [shape, a1, b1]
            · simp only [Shape.leaves, Shape.leafData, List.map_append, a2, b2]
            · intro x
              simp only [Shape.predict, Shape.reach]
              split_ifs
              · exact a3 x
              · exact b3 x
            · intro d hdm
              simp only [Shape.leafData, List.mem_append] at hdm
              rcases hdm with hdm | hdm
              · exact a4 d hdm
              · exact b4 d hdm
            · intro _ d hdm
              simp only [Shape.leafData, List.mem_append] at hdm
              rcases hdm with hdm | hdm
              · exact a5 hrne d hdm
              · exact b5 hlne d hdm
            · simp only [Shape.leaves, List.length_append]
              have e1 : max 1 (split c (bestSearch c trp tf_ data g).2.1 data).1.length =
                  (split c (bestSearch c trp tf_ data g).2.1 data).1.length := by omega
              have e2 : max 1 (split c (bestSearch c trp tf_ data g).2.1 data).2.length =
                  (split c (bestSearch c trp tf_ data g).2.1 data).2.length := by omega
              rw [e1] at a6
              rw [e2] at b6
              omega
            · simp only [Shape.depth]
              have e1 : max 1 (split c (bestSearch c trp tf_ data g).2.1 data).1.length =
                  (split c (bestSearch c trp tf_ data g).2.1 data).1.length := by omega
              have e2 : max 1 (split c (bestSearch c trp tf_ data g).2.1 data).2.length =
                  (split c (bestSearch c trp tf_ data g).2.1 data).2.length := by omega
              rw [e1] at a7
              rw [e2] at b7
              omega

/-- What `train` returns, read through the calls that made its leaves: the
random state it returns is the one at the end of these calls, the examples of
the calls are the groups routed to the leaves, and every leaf was made either
by the stopping rule or, the stopping rule not applying, by the
degenerate-split guard on the test that the sampling loop of that very call
selected. -/
theorem trainAux_ctx [LinearOrder S] [Add S] [Mul S] [NatCast S]
    (c : Collab Y X L TF G S) (trp : TreeTrainingParameters S) :
    ∀ (fuel : Nat) (dim_ : Int) (tf_ : TF) (leaf_ : Bool × Option L) (tr_ tl_ : Tree Y X L TF)
      (stock_ data : ExampleSet Y X) (g : G) (T : Tree Y X L TF) (g1 : G),
      trainAux c trp fuel (node dim_ tf_ leaf_ tr_ tl_ stock_) data g = some (T, g1) →
      ∃ s, shape T = some s ∧
        (Shape.leafCtx c trp s tf_ data g).2 = g1 ∧
        (Shape.leafCtx c trp s tf_ data g).1.map (fun x => x.2.1) = Shape.leafData c s data ∧
        ∀ x, x ∈ (Shape.leafCtx c trp s tf_ data g).1 →
          (c.objfunc x.2.1.Y_ ≤ trp.objfunc_th ∨ (x.2.1.length : Int) ≤ trp.nexamples_th) ∨
          (¬ (c.objfunc x.2.1.Y_ ≤ trp.objfunc_th ∨ (x.2.1.length : Int) ≤ trp.nexamples_th) ∧
            ((split c (bestSearch c trp x.1 x.2.1 x.2.2).2.1 x.2.1).1.length = 0 ∨
              (split c (bestSearch c trp x.1 x.2.1 x.2.2).2.1 x.2.1).2.length = 0)) := by
  intro fuel
  induction fuel with
  | zero => intro _ _ _ _ _ _ _ _ T g1 h; simp [trainAux] at h
  | succ fuel ih =>
    intro dim_ tf_ leaf_ tr_ tl_ stock_ data g T g1 h
    have hg : (bestSearch c trp tf_ data g).2.2 = sampleState c tf_ trp.nsamplings.toNat g :=
      (search_spec c tf_ data trp.nsamplings.toNat c.dblMax c.tfDefault g).1
    rw [trainAux_succ] at h
    split_ifs at h with hs hd
    · simp only [Option.some.injEq, Prod.mk.injEq] at h
      refine ⟨Shape.leaf (c.leafFromLabels data.Y_), by rw [← h.1]; simp [shape], ?_, ?_, ?_⟩
      · simp only [Shape.leafCtx, if_pos hs]; exact h.2
      · simp [Shape.leafCtx, Shape.leafData]
      · intro x hx
        simp only [Shape.leafCtx, List.mem_singleton] at hx
        subst hx
        exact Or.inl hs
    · simp only [Option.some.injEq, Prod.mk.injEq] at h
      refine ⟨Shape.leaf (c.leafFromLabels data.Y_), by rw [← h.1]; simp [shape], ?_, ?_, ?_⟩
      · simp only [Shape.leafCtx, if_neg hs]; rw [← hg]; exact h.2
      · simp [Shape.leafCtx, Shape.leafData]
      · intro x hx
        simp only [Shape.leafCtx, List.mem_singleton] at hx
        subst hx
        exact Or.inr ⟨hs, hd⟩
    · cases hr : trainAux c trp fuel (new dim_ (bestSearch c trp tf_ data g).2.1)
          (split c (bestSearch c trp tf_ data g).2.1 data).1
          (bestSearch c trp tf_ data g).2.2 with
      | none => simp [hr] at h
      | some r =>
        obtain ⟨tr1, g2⟩ := r
        simp only [hr] at h
        cases hl : trainAux c trp fuel (new dim_ (bestSearch c trp tf_ data g).2.1)
            (split c (bestSearch c trp tf_ data g).2.1 data).2 g2 with
        | none => simp [hl] at h
        | some l =>
          obtain ⟨tl1, g3⟩ := l
          simp only [hl, Option.some.injEq, Prod.mk.injEq] at h
          obtain ⟨sr, a1, a2, a3, a4⟩ := ih _ _ _ _ _ _ _ _ _ _ hr
          obtain ⟨sl, b1, b2, b3, b4⟩ := ih _ _ _ _ _ _ _ _ _ _ hl
          rw [hg] at a2 a3 a4
          rw [← a2] at b2 b3 b4
          refine ⟨Shape.internal (bestSearch c trp tf_ data g).2.1 sr sl, ?_, ?_, ?_, ?_⟩
          · rw [← h.1]; simp [shape, a1, b1]
          · simp only [Shape.leafCtx]; rw [b2]; exact h.2
          · simp only [Shape.leafCtx, Shape.leafData, List.map_append, a3, b3]
          · intro x hx
            simp only [Shape.leafCtx, List.mem_append] at hx
            rcases hx with hx | hx
            · exact a4 x hx
            · exact b4 x hx

/-- C17: `train` returns for every example set, objective, parameter setting
and random source: the recursion budget `size(data) + 1` is never exhausted,
and any larger budget gives the same result. Every recursive call is made on
a non-empty example set that is strictly smaller than that of its parent. The
tree returned is well formed, has at most `size(data)` leaves when `data` is
not empty, has a depth below `max 1 size(data)`, and `predict` returns on it
for every input. -/
theorem train_terminates [LinearOrder S] [Add S] [Mul S] [NatCast S]
    (c : Collab Y X L TF G S) (trp : TreeTrainingParameters S)
    (dim_ : Int) (tf_ : TF) (leaf_ : Bool × Option L) (tr_ tl_ : Tree Y X L TF)
    (stock_ data : ExampleSet Y X) (g : G) :
    (∃ T g1 s, train c trp (node dim_ tf_ leaf_ tr_ tl_ stock_) data g = some (T, g1) ∧
      (∀ fuel, data.length < fuel →
        trainAux c trp fuel (node dim_ tf_ leaf_ tr_ tl_ stock_) data g = some (T, g1)) ∧
      shape T = some s ∧
      (data ≠ [] → (Shape.leaves s).length ≤ data.length) ∧
      Shape.depth s + 1 ≤ max 1 data.length ∧
      ∀ x, predict c T x = some (Shape.predict c s x)) ∧
    (¬ (c.objfunc data.Y_ ≤ trp.objfunc_th ∨ (data.length : Int) ≤ trp.nexamples_th) →
      ¬ ((split c (bestSearch c trp tf_ data g).2.1 data).1.length = 0 ∨
        (split c (bestSearch c trp tf_ data g).2.1 data).2.length = 0) →
      0 < (split c (bestSearch c trp tf_ data g).2.1 data).1.length ∧
      (split c (bestSearch c trp tf_ data g).2.1 data).1.length < data.length ∧
      0 < (split c (bestSearch c trp tf_ data g).2.1 data).2.length ∧
      (split c (bestSearch c trp tf_ data g).2.1 data).2.length < data.length) := by
  refine ⟨?_, ?_⟩
  · obtain ⟨T, g1, s0, ht, _⟩ := train_total c trp dim_ tf_ leaf_ tr_ tl_ stock_ data g
    obtain ⟨s, h1, _, _, _, _, h6, h7⟩ := trainAux_routing c trp _ _ _ _ _ _ ht
    refine ⟨T, g1, s, ht, ?_, h1, ?_, h7, predict_of_shape c T s h1⟩
    · intro fuel hf
      rw [← ht]
      exact trainAux_fuel c trp _ _ _ _ _ hf (by omega)
    · intro hne
      have : 0 < data.length := List.length_pos.mpr hne
      have e : max 1 data.length = data.length := by omega
      rw [e] at h6
      exact h6
  · intro _ hd
    have hlen := split_length c (bestSearch c trp tf_ data g).2.1 data
    omega

/-- C20: `train` on a fresh tree over the example set `D` returns a tree whose
tests route every example of `D` to exactly one leaf: the groups of examples
reaching the leaves are, taken together, a rearrangement of `D`, and the value
of every leaf is built from the labels of its group, so the label collections
of the leaves are together the labels of `D` with multiplicity. For every
example `(y, x)` of `D`, `predict x` is the value built from the labels of the
group of the leaf that `x` reaches, the example is in that group, and `y` is
among those labels. -/
theorem train_leaves_partition [LinearOrder S] [Add S] [Mul S] [NatCast S]
    (c : Collab Y X L TF G S) (trp : TreeTrainingParameters S) (dim : Int) (tf : TF)
    (D : ExampleSet Y X) (g : G) :
    ∃ T g1 s, train c trp (new dim tf) D g = some (T, g1) ∧ shape T = some s ∧
      Shape.leaves s = (Shape.leafData c s D).map (fun d => c.leafFromLabels d.Y_) ∧
      (Shape.leafData c s D).flatten.Perm D ∧
      ((Shape.leafData c s D).map ExampleSet.Y_).flatten.Perm D.Y_ ∧
      ∀ ex, ex ∈ D →
        Shape.reach c s D ex.2 ∈ Shape.leafData c s D ∧
        ex ∈ Shape.reach c s D ex.2 ∧
        predict c T ex.2 = some (c.leafFromLabels (Shape.reach c s D ex.2).Y_) ∧
        ex.1 ∈ (Shape.reach c s D ex.2).Y_ := by
  obtain ⟨T, g1, s0, ht, _⟩ := train_total c trp dim tf (true, none) null null [] D g
  obtain ⟨s, h1, h2, h3, _, _, _, _⟩ := trainAux_routing c trp _ _ _ _ _ _ ht
  refine ⟨T, g1, s, ht, h1, h2, leafData_perm c s D, ?_, ?_⟩
  · have hp := (leafData_perm c s D).map Prod.fst
    rw [List.map_flatten] at hp
    exact hp
  · intro ex hex
    refine ⟨reach_mem_leafData c ex.2 s D, mem_reach c ex s D hex, ?_, ?_⟩
    · rw [predict_of_shape c T s h1, h3]
    · exact List.mem_map_of_mem Prod.fst (mem_reach c ex s D hex)

end Tree

/-! ## C14: leaf purity of a trained forest -/

namespace Forest

variable {Y X L TF G S : Type}

theorem range_map_get? (D : List (Y × X)) :
    (List.range D.length).map D.get? = D.map some := by
  induction D with
  | nil => rfl
  | cons a D ih =>
    rw [List.length_cons, List.range_succ_eq_map, List.map_cons, List.map_map]
    simp only [List.get?_cons_zero, List.map_cons, List.cons.injEq, true_and]
    rw [← ih]
    apply List.map_congr_left
    intro i _
    simp

theorem perm_of_map_some {α : Type} (l1 l2 : List α) (h : (l1.map some).Perm (l2.map some)) :
    l1.Perm l2 := by
  have := h.filterMap id
  simpa [List.filterMap_map] using this

/-- The training loop, read through routing: one example subset per block,
one shape per tree, every leaf value built from the labels of the examples
routed to it, every leaf made by the stopping rule or by the degenerate-split
guard of the call that made it. Each subset is paired with the random state in
which the training of its tree starts: the state handed to the loop for the
first tree, and for every other tree the state in which the tree before it
ended. -/
theorem trainLoop_routing [LinearOrder S] [Add S] [Mul S] [NatCast S]
    (c : Collab Y X L TF G S) (trp : TreeTrainingParameters S) (data : ExampleSet Y X)
    (dim : Int) (tf : TF) :
    ∀ (k : Nat) (blocks : List (List Nat)) (g : G), blocks.length = k →
      (∀ b, b ∈ blocks → ∀ i, i ∈ b → i < data.length) →
      ∃ (ts : List (Tree Y X L TF)) (g1 : G) (ss : List (Shape L TF))
        (pgs : List (ExampleSet Y X × G)),
        trainLoop c trp data (List.replicate k (Tree.new dim tf)) blocks g = some (ts, g1) ∧
        ts.map Tree.shape = ss.map some ∧
        pgs.map (fun pg => some pg.1) = blocks.map (fun b => ExampleSet.subset data b []) ∧
        pgs.map (fun pg => pg.1.map some) = blocks.map (fun b => b.map data.get?) ∧
        pgs.map Prod.snd ++ [g1] =
          g :: List.zipWith (fun s pg => (Shape.leafCtx c trp s tf pg.1 pg.2).2) ss pgs ∧
        List.Forall₂ (fun s pg =>
          Shape.leaves s = (Shape.leafData c s pg.1).map (fun d => c.leafFromLabels d.Y_) ∧
          (Shape.leafCtx c trp s tf pg.1 pg.2).1.map (fun x => x.2.1) =
            Shape.leafData c s pg.1 ∧
          (∀ x, x ∈ (Shape.leafCtx c trp s tf pg.1 pg.2).1 →
            (c.objfunc x.2.1.Y_ ≤ trp.objfunc_th ∨ (x.2.1.length : Int) ≤ trp.nexamples_th) ∨
            (¬ (c.objfunc x.2.1.Y_ ≤ trp.objfunc_th ∨
                (x.2.1.length : Int) ≤ trp.nexamples_th) ∧
              ((Tree.split c (Tree.bestSearch c trp x.1 x.2.1 x.2.2).2.1 x.2.1).1.length = 0 ∨
                (Tree.split c (Tree.bestSearch c trp x.1 x.2.1 x.2.2).2.1 x.2.1).2.length
                  = 0))) ∧
          (pg.1 ≠ [] → ∀ d, d ∈ Shape.leafData c s pg.1 → d ≠ [])) ss pgs := by
  intro k
  induction k with
  | zero =>
    intro blocks g hlen _
    have : blocks = [] := List.length_eq_zero.mp hlen
    subst this
    exact ⟨[], g, [], [], by simp [trainLoop], rfl, rfl, rfl, rfl, List.Forall₂.nil⟩
  | succ k ih =>
    intro blocks g hlen hrange
    cases blocks with
    | nil => simp at hlen
    | cons b bs =>
      obtain ⟨part, hp1, hp2⟩ := subset_spec data b [] (hrange b (List.mem_cons_self _ _))
      rw [List.nil_append] at hp1
      obtain ⟨t, g2, s0, ht, _⟩ := Tree.train_total c trp dim tf (true, none) Tree.null
        Tree.null [] part g
      obtain ⟨s, a1, a2, _, _, a5, _, _⟩ := Tree.trainAux_routing c trp _ _ _ _ _ _ ht
      obtain ⟨s1, c1, c2, c3, c4⟩ := Tree.trainAux_ctx c trp _ _ _ _ _ _ _ _ _ _ _ ht
      have hs1 : s1 = s := by
        rw [a1] at c1
        exact (Option.some.inj c1).symm
      subst hs1
      obtain ⟨ts, g1, ss, pgs, h1, h2, h3, h4, h5, h6⟩ := ih bs g2 (by simpa using hlen)
        (fun b1 hb1 => hrange b1 (List.mem_cons_of_mem _ hb1))
      refine ⟨t :: ts, g1, s1 :: ss, (part, g) :: pgs, ?_, by simp [a1, h2], by simp [hp1, h3],
        by simp [hp2, h4], ?_, List.Forall₂.cons ⟨a2, c3, c4, a5⟩ h6⟩
      · simp only [List.replicate_succ, trainLoop, hp1]
        have ht2 : Tree.train c trp (Tree.new dim tf) part g = some (t, g2) := ht
        simp only [ht2, h1]
      · simp only [List.map_cons, List.cons_append, List.zipWith_cons_cons, h5, c2]

theorem zipWith_leafData_perm (c : Collab Y X L TF G S) :
    ∀ (ss : List (Shape L TF)) (parts : List (ExampleSet Y X)), ss.length = parts.length →
      (List.zipWith (Shape.leafData c) ss parts).flatten.flatten.Perm parts.flatten := by
  intro ss
  induction ss with
  | nil => intro parts h; cases parts with
    | nil => simp
    | cons a parts => simp at h
  | cons s ss ih =>
    intro parts h
    cases parts with
    | nil => simp at h
    | cons part parts =>
      simp only [List.zipWith_cons_cons, List.flatten_cons, List.flatten_append]
      exact (Tree.leafData_perm c s part).append (ih parts (by simpa using h))

theorem forall₂_imp_of_mem {α β : Type} {R Q : α → β → Prop} {P : β → Prop} :
    ∀ {l1 : List α} {l2 : List β}, List.Forall₂ R l1 l2 → (∀ b, b ∈ l2 → P b) →
      (∀ a b, P b → R a b → Q a b) → List.Forall₂ Q l1 l2 := by
  intro l1 l2 h
  induction h with
  | nil => intro _ _; exact List.Forall₂.nil
  | cons hab _ ih =>
    intro hP himp
    exact List.Forall₂.cons (himp _ _ (hP _ (List.mem_cons_self _ _)) hab)
      (ih (fun b hb => hP b (List.mem_cons_of_mem _ hb)) himp)

theorem block_length (p : List Nat) (K : Nat) (b : List Nat)
    (hb : b ∈ subidxs_set p (K : Int)) : b.length = p.length / K := by
  have hB : subidxs_set p (K : Int) = subidxsLoop (p.length / K) K p := by simp [subidxs_set]
  rw [hB] at hb
  obtain ⟨i, hi⟩ := List.mem_iff_get?.mp hb
  have hiK : i < K := by
    obtain ⟨h, _⟩ := List.get?_eq_some.mp hi
    rw [subidxsLoop_length] at h
    exact h
  rw [subidxsLoop_get _ K p i hiK] at hi
  simp only [Option.some.injEq] at hi
  rw [← hi, List.length_take, List.length_drop]
  have h1 : K * (p.length / K) ≤ p.length := Nat.mul_div_le _ K
  have h2 : (i + 1) * (p.length / K) ≤ K * (p.length / K) := Nat.mul_le_mul_right _ (by omega)
  have e : (i + 1) * (p.length / K) = i * (p.length / K) + p.length / K := by ring
  omega

theorem singleValued_of_stop [LinearOrder S] [Zero S] (c : Collab Y X L TF G S)
    (hobj : ∀ ys, ¬ SingleValued ys → 0 < c.objfunc ys) (d : ExampleSet Y X) (hne : d ≠ [])
    (h : c.objfunc d.Y_ ≤ 0 ∨ (d.length : Int) ≤ 1) : SingleValued d.Y_ := by
  rcases h with h | h
  · by_contra hns
    exact absurd (hobj _ hns) (not_lt.mpr h)
  · cases d with
    | nil => exact absurd rfl hne
    | cons e d =>
      cases d with
      | nil => exact ⟨e.1, by simp [ExampleSet.Y_], by simp [ExampleSet.Y_]⟩
      | cons e2 d => simp only [List.length_cons] at h; omega

/-- C14, as stated, fails: with a random source that only returns the
prototype test (threshold 0, true on every example), every split is
degenerate, and each of the three trees is a single leaf built from the three
labels of its block, which have two label values. -/
theorem leaf_purity_counterexample :
    train (thrCollab singleObj 1000) ⟨3, ⟨0, 1, 1, 500, 2, false⟩⟩ (Forest.new 1 0)
        nineExamples [] =
      some (⟨1, 0, [Tree.node 1 0 (true, some [7, 8, 7]) Tree.null Tree.null [],
        Tree.node 1 0 (true, some [8, 7, 8]) Tree.null Tree.null [],
        Tree.node 1 0 (true, some [7, 8, 7]) Tree.null Tree.null []]⟩, []) ∧
    singleObj [7, 7] = 0 ∧ 0 < singleObj [7, 8, 7] ∧
    (7 ∈ [7, 8, 7] ∧ 8 ∈ [7, 8, 7] ∧ (7 : Nat) ≠ 8) := by
  decide

theorem singleObj_pos (ys : List Nat) (h : ¬ SingleValued ys) : 0 < singleObj ys := by
  cases ys with
  | nil => decide
  | cons y rest =>
    by_cases hall : rest.all (fun z => z == y) = true
    · exfalso
      apply h
      refine ⟨y, List.mem_cons_self _ _, ?_⟩
      intro z hz
      rcases List.mem_cons.mp hz with rfl | hz
      · rfl
      · have := List.all_eq_true.mp hall z hz
        simpa using this
    · simp only [singleObj, hall, Bool.false_eq_true, if_false]
      decide

/-- C14, amended: let a forest be trained with `ntrees = K` dividing the
number of examples of a non-empty example set (so `K ≥ 1`), `objfunc_th = 0`,
`nexamples_th = 1`, and an objective that is positive on every label
collection that does not have a single label value. Then training returns `K`
well-formed trees; tree `i` is grown from the examples selected by block `i`,
starting in the random state left by the shuffle (first tree) or by the tree
before it, and these subsets together are a rearrangement of the example set.
Every leaf value is built from the labels of the examples routed to that
leaf. These labels have a single label value, unless the leaf was made by the
degenerate-split guard: the stopping rule did not apply to the examples of its
node, and the test selected by the sampling loop of that node, run from the
prototype test of that node and the random state at that point of the
training, puts all examples of the node on one side. No example is dropped: the
groups of examples of all leaves of all trees are together a rearrangement of
the example set. -/
theorem forest_leaf_purity [LinearOrder S] [Add S] [Mul S] [NatCast S] [Zero S]
    (c : Collab Y X L TF G S) (trp : ForestTrainingParameters S) (F0 : Forest Y X L TF)
    (D : ExampleSet Y X) (g : G) (K : Nat) (hK : trp.ntrees = (K : Int))
    (hdiv : K ∣ D.length) (hpos : D ≠ [])
    (hth : trp.tree_trp.objfunc_th = 0) (hn : trp.tree_trp.nexamples_th = 1)
    (hobj : ∀ ys, ¬ SingleValued ys → 0 < c.objfunc ys)
    (hperm : (c.random_shuffle (List.range D.length) g).1.Perm (List.range D.length)) :
    ∃ (F : Forest Y X L TF) (g1 : G) (ss : List (Shape L TF))
      (pgs : List (ExampleSet Y X × G)),
      train c trp F0 D g = some (F, g1) ∧
      F.trees_.map Tree.shape = ss.map some ∧ ss.length = K ∧ pgs.length = K ∧
      pgs.map (fun pg => pg.1.map some) =
        (subidxs_set (c.random_shuffle (List.range D.length) g).1 trp.ntrees).map
          (fun b => b.map D.get?) ∧
      (pgs.map Prod.fst).flatten.Perm D ∧
      pgs.map Prod.snd ++ [g1] =
        (c.random_shuffle (List.range D.length) g).2 ::
          List.zipWith (fun s pg => (Shape.leafCtx c trp.tree_trp s F0.tf_ pg.1 pg.2).2)
            ss pgs ∧
      List.Forall₂ (fun s pg =>
        Shape.leaves s = (Shape.leafData c s pg.1).map (fun d => c.leafFromLabels d.Y_) ∧
        (Shape.leafCtx c trp.tree_trp s F0.tf_ pg.1 pg.2).1.map (fun x => x.2.1) =
          Shape.leafData c s pg.1 ∧
        ∀ x, x ∈ (Shape.leafCtx c trp.tree_trp s F0.tf_ pg.1 pg.2).1 →
          SingleValued x.2.1.Y_ ∨
          (¬ (c.objfunc x.2.1.Y_ ≤ trp.tree_trp.objfunc_th ∨
              (x.2.1.length : Int) ≤ trp.tree_trp.nexamples_th) ∧
            ((Tree.split c (Tree.bestSearch c trp.tree_trp x.1 x.2.1 x.2.2).2.1
                x.2.1).1.length = 0 ∨
              (Tree.split c (Tree.bestSearch c trp.tree_trp x.1 x.2.1 x.2.2).2.1
                x.2.1).2.length = 0)))
        ss pgs ∧
      (List.zipWith (Shape.leafData c) ss (pgs.map Prod.fst)).flatten.flatten.Perm D := by
  have hplen : (c.random_shuffle (List.range D.length) g).1.length = D.length := by
    rw [hperm.length_eq, List.length_range]
  have hrange : ∀ b, b ∈ subidxs_set (c.random_shuffle (List.range D.length) g).1 trp.ntrees →
      ∀ i, i ∈ b → i < D.length := by
    intro b hb i hi
    have := hperm.mem_iff.mp (mem_subidxs_set _ _ b i hb hi)
    simpa using this
  have hlen : (subidxs_set (c.random_shuffle (List.range D.length) g).1 trp.ntrees).length
      = K := by
    rw [hK]; simpa using subidxsLoop_length _ ((K : Int).toNat) _
  obtain ⟨ts, g1, ss, pgs, h1, h2, h3, h4, hchain, h5⟩ := trainLoop_routing c trp.tree_trp D
    F0.dim_ F0.tf_ K _ (c.random_shuffle (List.range D.length) g).2 hlen hrange
  have hparts : pgs.length = K := by
    have := congrArg List.length h3
    simpa [hlen] using this
  have hss : ss.length = K := by rw [h5.length_eq, hparts]
  have hDpos : 0 < D.length := List.length_pos.mpr hpos
  have hKn : K * (D.length / K) = D.length := Nat.mul_div_cancel' hdiv
  have hq : 1 ≤ D.length / K := by
    rcases Nat.eq_zero_or_pos (D.length / K) with h0 | h0
    · rw [h0] at hKn; omega
    · exact h0
  have hflat : (subidxs_set (c.random_shuffle (List.range D.length) g).1 trp.ntrees).flatten
      = (c.random_shuffle (List.range D.length) g).1 := by
    rw [hK, subidxs_set, subidxsLoop_flatten, hplen]
    simp only [Int.toNat_ofNat, hKn]
    exact List.take_of_length_le (le_of_eq hplen)
  have hpartsD : (pgs.map Prod.fst).flatten.Perm D := by
    apply perm_of_map_some
    have e : (pgs.map Prod.fst).flatten.map some =
        (c.random_shuffle (List.range D.length) g).1.map D.get? := by
      rw [List.map_flatten, List.map_map]
      have e2 : (List.map some ∘ Prod.fst : ExampleSet Y X × G → List (Option (Y × X))) =
          fun pg => pg.1.map some := rfl
      rw [e2, h4, ← List.map_flatten, hflat]
    rw [e, ← range_map_get? D]
    exact hperm.map _
  have hne : ∀ pg, pg ∈ pgs → pg.1 ≠ [] := by
    intro pg hp
    have hm : pg.1.map some ∈ pgs.map (fun pg => pg.1.map some) :=
      List.mem_map_of_mem (fun pg => pg.1.map some) hp
    rw [h4] at hm
    obtain ⟨b, hb, hbe⟩ := List.mem_map.mp hm
    rw [hK] at hb
    have hbl := block_length _ K b hb
    rw [hplen] at hbl
    have hl : pg.1.length = b.length := by
      have := congrArg List.length hbe
      simpa using this.symm
    intro h0
    rw [h0] at hl
    simp only [List.length_nil] at hl
    omega
  refine ⟨⟨F0.dim_, F0.tf_, ts⟩, g1, ss, pgs, ?_, h2, hss, hparts, h4, hpartsD, hchain, ?_, ?_⟩
  · have h1k := h1
    rw [hK] at h1k
    simp only [train, hK, Int.toNat_ofNat, h1k]
  · refine forall₂_imp_of_mem h5 hne ?_
    intro s pg hp hR
    refine ⟨hR.1, hR.2.1, ?_⟩
    intro x hx
    have hxd : x.2.1 ∈ Shape.leafData c s pg.1 := by
      rw [← hR.2.1]
      exact List.mem_map_of_mem (fun x => x.2.1) hx
    rcases hR.2.2.1 x hx with hstop | hdeg
    · left
      rw [hth, hn] at hstop
      exact singleValued_of_stop c hobj x.2.1 (hR.2.2.2 hp x.2.1 hxd) hstop
    · exact Or.inr hdeg
  · exact (zipWith_leafData_perm c ss (pgs.map Prod.fst)
      (by rw [hss, List.length_map, hparts])).trans hpartsD

/-- Witness for C14: three trees on nine examples whose labels follow the
feature, with candidates (threshold 5) that separate the two label values: the
first and the third tree are single leaves with one label value, the second
one splits at 5 into two such leaves. -/
theorem forest_leaf_purity_witness :
    train (thrCollab singleObj 1000) ⟨3, ⟨0, 1, 1, 500, 2, false⟩⟩ (Forest.new 1 0)
        nineSorted [5, 5] =
      some (⟨1, 0, [Tree.node 1 0 (true, some [8, 8, 8]) Tree.null Tree.null [],
        Tree.node 1 5 (false, none) (Tree.node 1 5 (true, some [8, 8]) Tree.null Tree.null [])
          (Tree.node 1 5 (true, some [7]) Tree.null Tree.null []) [],
        Tree.node 1 0 (true, some [7, 7, 7]) Tree.null Tree.null []]⟩, []) ∧
    ∃ (F : Forest Nat Nat (List Nat) Nat) (g1 : List Nat) (ss : List (Shape (List Nat) Nat))
      (pgs : List (ExampleSet Nat Nat × List Nat)),
      train (thrCollab singleObj 1000) ⟨3, ⟨0, 1, 1, 500, 2, false⟩⟩ (Forest.new 1 0)
        nineSorted [5, 5] = some (F, g1) ∧
      F.trees_.map Tree.shape = ss.map some ∧ ss.length = 3 ∧ pgs.length = 3 ∧
      (pgs.map Prod.fst).flatten.Perm nineSorted ∧
      (List.zipWith (Shape.leafData (thrCollab singleObj 1000)) ss
        (pgs.map Prod.fst)).flatten.flatten.Perm nineSorted := by
  obtain ⟨F, g1, ss, pgs, h1, h2, h3, h4, _, h6, _, _, h9⟩ :=
    forest_leaf_purity (thrCollab singleObj 1000) ⟨3, ⟨0, 1, 1, 500, 2, false⟩⟩ (Forest.new 1 0)
      nineSorted [5, 5] 3 rfl (by decide) (by decide) rfl rfl singleObj_pos
      (List.reverse_perm _)
  exact ⟨by decide, F, g1, ss, pgs, h1, h2, h3, h4, h6, h9⟩

end Forest

end octrf
